import Mathlib

/-!
Shallow embedding of the LectureLense backend indexing and retrieval pipeline
(`backend/indexer.py` and `backend/main.py`).

External collaborators are modelled explicitly:
* the embedding service (`ollama.embed`) is a function parameter
  `embed : List String → List (List ℚ)`;
* the LLM judge / chat model (`ollama.chat`) is a function parameter returning
  `Except String String` (a reply, or a raised error);
* the vector store's similarity computation is a function parameter
  `dist : Entry → ℚ` giving the cosine distance of an entry to the query;
* the vector collection itself is a list of entries with the documented
  add/get/query/count operations (bulk upsert by id, filtered queries);
* a file on disk is a `FileNode` carrying the fields the pipeline reads
  through `pathlib` (absolute path, lower-cased extension via `.suffix`,
  `is_file`, `st_mtime_ns`, path relative to the root) together with the
  outcome of running its registered extractor on its contents
  (`Except String (List Page)`: extracted pages, or a raised parse error).

Machine arithmetic (SHA-256) is modelled on ℕ with explicit reduction
modulo 2^32; Python floats are modelled by ℚ with explicit rounding to
four decimal places where the code rounds.
-/

namespace LectureLense

/-- Reduce modulo 2^32 (SHA-256 works on 32-bit words). -/
def w32 (n : ℕ) : ℕ := n % 4294967296

/-- Right rotation of a 32-bit word. -/
def rotr32 (k n : ℕ) : ℕ := w32 ((n >>> k) ||| (n <<< (32 - k)))

/-- Fuel-driven loop of `decDigits` (structural recursion so that the kernel
can evaluate it; the fuel is always sufficient). -/
def decDigitsGo : ℕ → ℕ → List Char
  | 0, _ => []
  | fuel + 1, n =>
    if n < 10 then [Char.ofNat (48 + n)]
    else decDigitsGo fuel (n / 10) ++ [Char.ofNat (48 + n % 10)]

/-- Decimal digit characters of a natural number, most significant first;
models Python `str(n)` for a nonnegative integer. -/
def decDigits (n : ℕ) : List Char := decDigitsGo (n + 1) n

/-- Decimal rendering of a natural number (Python `str(n)` / f-string). -/
def decStr (n : ℕ) : String := ⟨decDigits n⟩

/-- UTF-8 encoding of one character as byte values (models `str.encode()`). -/
def utf8Bytes (c : Char) : List ℕ :=
  let n := c.toNat
  if n < 128 then [n]
  else if n < 2048 then [192 + n / 64, 128 + n % 64]
  else if n < 65536 then [224 + n / 4096, 128 + n / 64 % 64, 128 + n % 64]
  else [240 + n / 262144, 128 + n / 4096 % 64, 128 + n / 64 % 64, 128 + n % 64]

/-- UTF-8 bytes of a string. -/
def strBytes (s : String) : List ℕ := s.data.flatMap utf8Bytes

/-- Fuel-driven loop of `chunksOf` (structural recursion so that the kernel
can evaluate it; the fuel is always sufficient when `0 < k`). -/
def chunksGo (k : ℕ) : ℕ → List α → List (List α)
  | 0, _ => []
  | _, [] => []
  | fuel + 1, x :: xs => (x :: xs).take k :: chunksGo k fuel ((x :: xs).drop k)

/-- Split a list into consecutive chunks of `k` elements (the last chunk may
be shorter); meaningful for `0 < k`.  Used for SHA-256 blocks and for the
batch-size-32 embedding batches. -/
def chunksOf (k : ℕ) (l : List α) : List (List α) := chunksGo k l.length l

/-- Big-endian 8-byte encoding of a natural number (SHA-256 length field). -/
def be64 (n : ℕ) : List ℕ :=
  [(n >>> 56) % 256, (n >>> 48) % 256, (n >>> 40) % 256, (n >>> 32) % 256,
   (n >>> 24) % 256, (n >>> 16) % 256, (n >>> 8) % 256, n % 256]

/-- SHA-256 message padding. -/
def shaPad (msg : List ℕ) : List ℕ :=
  let L := msg.length
  let k := (120 - ((L + 1) % 64)) % 64
  msg ++ [128] ++ List.replicate k 0 ++ be64 (8 * L)

/-- SHA-256 round constants (FIPS 180-4, written in decimal). -/
def shaK : List ℕ :=
  [1116352408, 1899447441, 3049323471, 3921009573,
   961987163, 1508970993, 2453635748, 2870763221,
   3624381080, 310598401, 607225278, 1426881987,
   1925078388, 2162078206, 2614888103, 3248222580,
   3835390401, 4022224774, 264347078, 604807628,
   770255983, 1249150122, 1555081692, 1996064986,
   2554220882, 2821834349, 2952996808, 3210313671,
   3336571891, 3584528711, 113926993, 338241895,
   666307205, 773529912, 1294757372, 1396182291,
   1695183700, 1986661051, 2177026350, 2456956037,
   2730485921, 2820302411, 3259730800, 3345764771,
   3516065817, 3600352804, 4094571909, 275423344,
   430227734, 506948616, 659060556, 883997877,
   958139571, 1322822218, 1537002063, 1747873779,
   1955562222, 2024104815, 2227730452, 2361852424,
   2428436474, 2756734187, 3204031479, 3329325298]

/-- SHA-256 initial hash state (FIPS 180-4, written in decimal). -/
def shaH0 : List ℕ :=
  [1779033703, 3144134277, 1013904242, 2773480762,
   1359893119, 2600822924, 528734635, 1541459225]

/-- Assemble the sixteen 32-bit big-endian words of one 64-byte block. -/
def wordsOfChunk (c : List ℕ) : List ℕ :=
  (chunksOf 4 c).map fun b =>
    16777216 * b.getD 0 0 + 65536 * b.getD 1 0 + 256 * b.getD 2 0 + b.getD 3 0

/-- Extend sixteen message words to the 64-word SHA-256 message schedule. -/
def shaSchedule (w16 : List ℕ) : Array ℕ :=
  (List.range 48).foldl (fun w _ =>
    let x15 := w.getD (w.size - 15) 0
    let x2 := w.getD (w.size - 2) 0
    let s0 := rotr32 7 x15 ^^^ rotr32 18 x15 ^^^ (x15 >>> 3)
    let s1 := rotr32 17 x2 ^^^ rotr32 19 x2 ^^^ (x2 >>> 10)
    w.push (w32 (w.getD (w.size - 16) 0 + s0 + w.getD (w.size - 7) 0 + s1)))
    w16.toArray

/-- One SHA-256 compression step. -/
def shaStep (w : Array ℕ) (st : ℕ × ℕ × ℕ × ℕ × ℕ × ℕ × ℕ × ℕ) (i : ℕ) :
    ℕ × ℕ × ℕ × ℕ × ℕ × ℕ × ℕ × ℕ :=
  let (a, b, c, d, e, f, g, h) := st
  let S1 := rotr32 6 e ^^^ rotr32 11 e ^^^ rotr32 25 e
  let ch := (e &&& f) ^^^ ((e ^^^ 4294967295) &&& g)
  let temp1 := w32 (h + S1 + ch + shaK.getD i 0 + w.getD i 0)
  let S0 := rotr32 2 a ^^^ rotr32 13 a ^^^ rotr32 22 a
  let maj := (a &&& b) ^^^ (a &&& c) ^^^ (b &&& c)
  let temp2 := w32 (S0 + maj)
  (w32 (temp1 + temp2), a, b, c, w32 (d + temp1), e, f, g)

/-- Compress one 64-byte block into the running hash state. -/
def shaCompress (H : List ℕ) (c : List ℕ) : List ℕ :=
  let w := shaSchedule (wordsOfChunk c)
  let init := (H.getD 0 0, H.getD 1 0, H.getD 2 0, H.getD 3 0,
               H.getD 4 0, H.getD 5 0, H.getD 6 0, H.getD 7 0)
  let fin := (List.range 64).foldl (shaStep w) init
  let (a, b, c', d, e, f, g, h) := fin
  List.zipWith (fun x y => w32 (x + y)) H [a, b, c', d, e, f, g, h]

/-- SHA-256 digest bytes of a byte message. -/
def sha256 (msg : List ℕ) : List ℕ :=
  let Hf := (chunksOf 64 (shaPad msg)).foldl shaCompress shaH0
  Hf.flatMap fun h => [(h >>> 24) % 256, (h >>> 16) % 256, (h >>> 8) % 256, h % 256]

/-- Lower-case hexadecimal digit. -/
def hexChar (n : ℕ) : Char :=
  if n < 10 then Char.ofNat (48 + n) else Char.ofNat (87 + n)

/-- Two hex characters of a byte. -/
def byteHex (b : ℕ) : List Char := [hexChar (b / 16), hexChar (b % 16)]

/-- `hashlib.sha256(s.encode()).hexdigest()`. -/
def sha256hex (s : String) : String := ⟨(sha256 (strBytes s)).flatMap byteHex⟩

/-- Python `str.strip()` (also `.strip()` of extracted page text): remove
leading and trailing whitespace. -/
def pyStrip (s : String) : String :=
  ⟨((s.data.dropWhile Char.isWhitespace).reverse.dropWhile
      Char.isWhitespace).reverse⟩

/-- ASCII lower-casing of one character (Python `str.lower` on the
extension strings this code lower-cases). -/
def pyLowerChar (c : Char) : Char :=
  if 65 ≤ c.toNat ∧ c.toNat ≤ 90 then Char.ofNat (c.toNat + 32) else c

/-- Python `str.lower()`. -/
def pyLower (s : String) : String := ⟨s.data.map pyLowerChar⟩

/-- Python slice `s[:n]` (by code point). -/
def pyTake (s : String) (n : ℕ) : String := ⟨s.data.take n⟩

/-- Loop of `pyWords`: split on whitespace runs, dropping empty pieces
(`cur` is the current word, reversed). -/
def pyWordsGo (cur : List Char) : List Char → List String
  | [] => if cur.isEmpty then [] else [⟨cur.reverse⟩]
  | c :: cs =>
    if c.isWhitespace then
      if cur.isEmpty then pyWordsGo [] cs else ⟨cur.reverse⟩ :: pyWordsGo [] cs
    else pyWordsGo (c :: cur) cs

/-- Python `str.split()` with no argument: the whitespace-separated words. -/
def pyWords (s : String) : List String := pyWordsGo [] s.data

/-- Python `sep.join(pieces)`. -/
def joinSep (sep : String) : List String → String
  | [] => ""
  | x :: xs => xs.foldl (fun acc piece => acc ++ sep ++ piece) x

/-- Lexicographic comparison of character lists by code point (Python
string `<=`). -/
def charListLe : List Char → List Char → Bool
  | [], _ => true
  | _ :: _, [] => false
  | c :: cs, d :: ds =>
    if c.toNat < d.toNat then true
    else if d.toNat < c.toNat then false
    else charListLe cs ds

/-- Python string comparison `a <= b` (code-point lexicographic). -/
def strLeB (a b : String) : Bool := charListLe a.data b.data

/-- Insert `x` into `l` in front of the first element `y` with `le x y`;
building block of the stable insertion sort that models Python sorting. -/
def insertSorted (le : α → α → Bool) (x : α) : List α → List α
  | [] => [x]
  | y :: ys => if le x y then x :: y :: ys else y :: insertSorted le x ys

/-- Stable sort with respect to the boolean comparison `le` (models Python
`sorted` / `list.sort`, which are stable). -/
def sortedBy (le : α → α → Bool) (l : List α) : List α :=
  l.foldr (insertSorted le) []

/-- Ascending stable sort of strings (Python `sorted` on strings). -/
def sortStr (l : List String) : List String :=
  sortedBy strLeB l

/-- Add an element to the accumulator if absent; models building a Python
`set` whose final contents are then counted / sorted. -/
def insertUniq (s : List String) (x : String) : List String :=
  if x ∈ s then s else s ++ [x]

/-! ## Data model -/

/-- Per-file extraction output: `{page_number (1-indexed), text}`
(`extract_pages_from_*` in `indexer.py`). -/
structure Page where
  page_number : ℕ
  text : String
deriving Repr, DecidableEq

/-- Flattened scan output: `{file_path (relative), page_number, text}`
(`scan_folder` in `indexer.py`). -/
structure PageRec where
  file_path : String
  page_number : ℕ
  text : String
deriving Repr, DecidableEq

instance {ε : Type} {α : Type} [DecidableEq ε] [DecidableEq α] :
    DecidableEq (Except ε α) := fun a b =>
  match a, b with
  | .error x, .error y =>
    if h : x = y then isTrue (by rw [h])
    else isFalse (by intro he; cases he; exact h rfl)
  | .ok x, .ok y =>
    if h : x = y then isTrue (by rw [h])
    else isFalse (by intro he; cases he; exact h rfl)
  | .error _, .ok _ => isFalse (by intro he; cases he)
  | .ok _, .error _ => isFalse (by intro he; cases he)

/-- A regular-file node of the scanned folder as seen through `pathlib`:
`path` is the absolute path string (`str(fp)`), `suffix` the extension
(`fp.suffix`), `isFile` the `fp.is_file()` result, `mtimeNs` the
`fp.stat().st_mtime_ns` value and `rel` the path relative to the scanned
root (`str(fp.relative_to(root))`).  `extract` is the outcome of calling
the registered extractor for this file: its pages, or the parse error it
raises. -/
structure FileNode where
  path : String
  suffix : String
  isFile : Bool
  mtimeNs : ℕ
  rel : String
  extract : Except String (List Page)
deriving Repr, DecidableEq

/-- A scanned folder: the nodes enumerated by `root.rglob("*")`. -/
abbrev Folder := List FileNode

/-- Metadata of a persisted index entry.  Content entries carry
`{file_path, page_number}`; the root marker additionally carries
`root_folder` and `fingerprint`. -/
structure EntryMeta where
  file_path : String
  page_number : ℕ
  root_folder : Option String := none
  fingerprint : Option String := none
deriving Repr, DecidableEq

/-- A persisted index entry of the ChromaDB collection. -/
structure Entry where
  id : String
  document : String
  metadata : EntryMeta
  embedding : List ℚ
deriving Repr, DecidableEq

/-- The single named vector collection. -/
structure Collection where
  entries : List Entry
deriving Repr, DecidableEq

/-- Result dictionary of `index_folder`.  The code's error dictionary has no
`total_files` / `files` keys; they are modelled as `0` / `[]` there. -/
structure IndexResult where
  status : String
  total_pages : ℕ
  total_files : ℕ
  files : List String
  message : Option String := none
deriving Repr, DecidableEq

/-- One search hit of `POST /search` (`SearchResult` in `main.py`). -/
structure SearchResult where
  file_path : String
  page_number : ℕ
  text_snippet : String
  full_text : String
  similarity_score : ℚ
deriving Repr, DecidableEq

/-- Response of `POST /search`. -/
structure SearchResponse where
  query : String
  results : List SearchResult
deriving Repr, DecidableEq

/-- One chat message `{role, content}`. -/
structure ChatMsg where
  role : String
  content : String
deriving Repr, DecidableEq

/-- One cited source of `POST /chat`. -/
structure ChatSource where
  file_path : String
  page_number : ℕ
deriving Repr, DecidableEq

/-- Response of `POST /chat`. -/
structure ChatResponse where
  answer : String
  sources : List ChatSource
deriving Repr, DecidableEq

/-- A PPTX shape as read by the extractor: whether it has a text frame, and
the text frame's text. -/
structure Shape where
  hasTextFrame : Bool
  text : String
deriving Repr, DecidableEq

/-! ## Extraction Dispatcher (`indexer.py` lines 23-80)

The parsers themselves (PyMuPDF, python-pptx, python-docx, file reading) are
external; a PDF is modelled as its list of per-page texts, a PPTX as its
list of slides (each a list of shapes), a DOCX as its paragraph texts and a
TXT as its decoded contents. -/

/-- Loop body of `extract_pages_from_pdf`: `i` is the 0-indexed page index;
pages whose stripped text is empty are skipped. -/
def pdfPagesGo (i : ℕ) : List String → List Page
  | [] => []
  | t :: ts =>
    let text := pyStrip t
    (if text ≠ "" then [⟨i + 1, text⟩] else []) ++ pdfPagesGo (i + 1) ts

/-- `extract_pages_from_pdf`: one record per page with non-empty stripped
text, numbered 1-indexed. -/
def extract_pages_from_pdf (doc : List String) : List Page := pdfPagesGo 0 doc

/-- Loop body of `extract_pages_from_pptx`: `i` is the 1-indexed slide
number (`enumerate(prs.slides, start=1)`). -/
def pptxPagesGo (i : ℕ) : List (List Shape) → List Page
  | [] => []
  | slide :: rest =>
    let texts := (slide.filter (·.hasTextFrame)).map (·.text)
    let text := pyStrip (joinSep "\n" texts)
    (if text ≠ "" then [⟨i, text⟩] else []) ++ pptxPagesGo (i + 1) rest

/-- `extract_pages_from_pptx`. -/
def extract_pages_from_pptx (slides : List (List Shape)) : List Page :=
  pptxPagesGo 1 slides

/-- `extract_pages_from_docx`: the whole document as a single page 1. -/
def extract_pages_from_docx (paragraphs : List String) : List Page :=
  let text := pyStrip (joinSep "\n" paragraphs)
  if text ≠ "" then [⟨1, text⟩] else []

/-- `extract_pages_from_txt`: the whole file as a single page 1. -/
def extract_pages_from_txt (contents : String) : List Page :=
  let text := pyStrip contents
  if text ≠ "" then [⟨1, text⟩] else []

/-! ## Folder Scanner and Fingerprint Engine (`indexer.py` lines 83-126) -/

/-- `SUPPORTED_EXTENSIONS` in `indexer.py`. -/
def SUPPORTED_EXTENSIONS : List String := [".pdf", ".pptx", ".docx", ".txt"]

/-- The filter both `scan_folder` and `_folder_fingerprint` apply to an
enumerated path: lower-cased suffix is supported, and it is a regular
file. -/
def supportedFile (fp : FileNode) : Bool :=
  decide (pyLower fp.suffix ∈ SUPPORTED_EXTENSIONS) && fp.isFile

/-- `sorted(root.rglob("*"))`: the enumerated nodes sorted by path. -/
def sortFiles (fs : List FileNode) : List FileNode :=
  sortedBy (fun a b => strLeB a.path b.path) fs

/-- The per-file loop of `scan_folder`: unsupported and non-regular entries
are skipped; each supported file is run through its extractor (whose error,
if raised, propagates out of the scan), and its pages are tagged with the
file's relative path. -/
def scanFiles : List FileNode → Except String (List PageRec)
  | [] => .ok []
  | f :: rest =>
    if supportedFile f then
      match f.extract with
      | .error e => .error e
      | .ok pages =>
        match scanFiles rest with
        | .error e => .error e
        | .ok restPages =>
          .ok (pages.map (fun p => ⟨f.rel, p.page_number, p.text⟩) ++ restPages)
    else scanFiles rest

/-- `scan_folder` in `indexer.py`. -/
def scan_folder (fs : Folder) : Except String (List PageRec) :=
  scanFiles (sortFiles fs)

/-- The `entries` list built by `_folder_fingerprint`:
`f"{fp}:{fp.stat().st_mtime_ns}"` for every supported regular file, in
sorted path order. -/
def fingerprintEntries (fs : Folder) : List String :=
  (sortFiles fs).filterMap fun fp =>
    if supportedFile fp then some (fp.path ++ ":" ++ decStr fp.mtimeNs) else none

/-- `_folder_fingerprint` in `indexer.py`:
`hashlib.sha256("\n".join(entries).encode()).hexdigest()[:16]`. -/
def _folder_fingerprint (fs : Folder) : String :=
  ⟨(sha256hex (joinSep "\n" (fingerprintEntries fs))).data.take 16⟩

/-- Following the spec's words (§4.3), for comparison with
`_folder_fingerprint`: "enumerate supported files sorted by path, build a
newline-joined string of `\x22<absolute_path>:<modification_time_in_nanoseconds>\x22`
per file, hash with a cryptographic hash function, truncate to a fixed
short prefix (16 hex characters)". -/
def fingerprintOfSpec (fs : Folder) : String :=
  let supported := fs.filter supportedFile
  let joined := joinSep "\n"
    ((sortFiles supported).map fun fp => fp.path ++ ":" ++ decStr fp.mtimeNs)
  ⟨(sha256hex joined).data.take 16⟩

/-! ## Index Store Adapter (ChromaDB collection operations, per spec §6) -/

/-- `collection.count()`. -/
def Collection.count (c : Collection) : ℕ := c.entries.length

/-- `collection.get(ids=[i])`: the entries with the given id. -/
def Collection.getById (c : Collection) (i : String) : List Entry :=
  c.entries.filter fun e => e.id == i

/-- `collection.get(where={"file_path": {"$ne": v}})`. -/
def Collection.getWhereNe (c : Collection) (v : String) : List Entry :=
  c.entries.filter fun e => e.metadata.file_path != v

/-- Upsert one entry by id (spec §6: `add` is a bulk upsert by id). -/
def upsertEntry (es : List Entry) (e : Entry) : List Entry :=
  if es.any (fun x => x.id == e.id) then
    es.map fun x => if x.id == e.id then e else x
  else es ++ [e]

/-- Zip the four parallel argument lists of `collection.add` into entries. -/
def mkEntries : List String → List String → List EntryMeta → List (List ℚ) →
    List Entry
  | i :: is, d :: ds, m :: ms, v :: vs => ⟨i, d, m, v⟩ :: mkEntries is ds ms vs
  | _, _, _, _ => []

/-- `collection.add(ids, documents, metadatas, embeddings)`: rejects unequal
list lengths, otherwise upserts each entry by id in order. -/
def Collection.addCall (c : Collection) (ids documents : List String)
    (metadatas : List EntryMeta) (embeddings : List (List ℚ)) :
    Except String Collection :=
  if ids.length = documents.length ∧ ids.length = metadatas.length ∧
      ids.length = embeddings.length then
    .ok ⟨(mkEntries ids documents metadatas embeddings).foldl upsertEntry c.entries⟩
  else .error "add: unequal argument lengths"

/-- `collection.query(query_embeddings=[qe], n_results=k, where=...)`: the
(up to) `k` nearest entries passing the filter, ascending by distance.  The
store's distance computation against the query embedding is the external
parameter `dist`. -/
def Collection.query (c : Collection) (dist : Entry → ℚ) (k : ℕ)
    (keep : Entry → Bool) : List Entry :=
  (sortedBy (fun a b => decide (dist a ≤ dist b)) (c.entries.filter keep)).take k

/-! ## Incremental index decision and build path (`indexer.py` lines 129-223) -/

/-- `f"{page['file_path']}::page_{page['page_number']}"`. -/
def pageId (f : String) (n : ℕ) : String := f ++ "::page_" ++ decStr n

/-- Metadata stored for a content page. -/
def pageMeta (p : PageRec) : EntryMeta := ⟨p.file_path, p.page_number, none, none⟩

/-- Metadata stored on the `__root__` marker. -/
def rootMeta (folder_path fingerprint : String) : EntryMeta :=
  ⟨"__root__", 0, some folder_path, some fingerprint⟩

/-- `pages[start : start + batch_size]` slices with `batch_size = 32`. -/
def batchesOf (pages : List PageRec) : List (List PageRec) :=
  chunksOf 32 pages

/-- The batch loop of `index_folder` (lines 192-216): per batch, embed the
texts in one call, build the parallel `ids` / `documents` / `metadatas`
lists, record the file paths in `files_seen`, and `collection.add`. -/
def buildLoop (embed : List String → List (List ℚ)) :
    List (List PageRec) → Collection × List String →
    Except String (Collection × List String)
  | [], st => .ok st
  | batch :: bs, (coll, files_seen) =>
    let texts := batch.map (·.text)
    let embeddings := embed texts
    let ids := batch.map fun p => pageId p.file_path p.page_number
    let documents := batch.map (·.text)
    let metadatas := batch.map pageMeta
    let files_seen := batch.foldl (fun s p => insertUniq s p.file_path) files_seen
    match coll.addCall ids documents metadatas embeddings with
    | .error e => .error e
    | .ok coll => buildLoop embed bs (coll, files_seen)

/-- The `FRESH` return value (lines 145-158): counts recomputed by reading
back the persisted entries (`count() - 1`, distinct file paths of the
non-root metadata). -/
def freshResult (coll : Collection) : IndexResult :=
  let total := coll.count - 1
  let fpaths := (coll.getWhereNe "__root__").map (·.metadata.file_path)
  let files := fpaths.foldl insertUniq []
  ⟨"ok", total, files.length, sortStr files,
    some "Already indexed (no changes detected)"⟩

/-- Lines 137-160: read the root marker of the existing collection and
compare its stored `(fingerprint, root_folder)` with the freshly computed
pair; `some result` means the `FRESH` early return fires, `none` means a
rebuild proceeds (no collection, no marker, or a mismatch). -/
def freshCheck (store : Option Collection) (fingerprint folder_path : String) :
    Option IndexResult :=
  match store with
  | none => none
  | some coll =>
    match (coll.getById "__root__").head? with
    | none => none
    | some rootDoc =>
      if rootDoc.metadata.fingerprint = some fingerprint ∧
          rootDoc.metadata.root_folder = some folder_path then
        some (freshResult coll)
      else none

/-- `index_folder` in `indexer.py`.  `store` is the persisted collection (or
`none` when `get_collection` raises); the returned pair is the collection
after the call together with the summary dictionary; `.error` models an
uncaught Python exception. -/
def index_folder (fs : Folder) (embed : List String → List (List ℚ))
    (store : Option Collection) (folder_path : String) :
    Except String (Option Collection × IndexResult) :=
  let fingerprint := _folder_fingerprint fs
  match freshCheck store fingerprint folder_path with
  | some r => .ok (store, r)
  | none =>
    match scan_folder fs with
    | .error e => .error e
    | .ok pages =>
      if pages.isEmpty then
        .ok (store, ⟨"error", 0, 0, [], some "No supported files found"⟩)
      else
        match (embed ["root folder marker"]).head? with
        | none => .error "root marker embedding missing"
        | some rootVec =>
          match Collection.addCall ⟨[]⟩ ["__root__"] ["__root_folder__"]
              [rootMeta folder_path fingerprint] [rootVec] with
          | .error e => .error e
          | .ok coll1 =>
            match buildLoop embed (batchesOf pages) (coll1, []) with
            | .error e => .error e
            | .ok (collF, files_seen) =>
              .ok (some collF,
                ⟨"ok", pages.length, files_seen.length, sortStr files_seen, none⟩)

/-! ## Retriever, Reranker and Chat Context Builder (`main.py`) -/

/-- The prompt built by `_llm_relevance_score` (up to the first 2000
characters of the page text). -/
def ratingPrompt (query text : String) : String :=
  "/no_think\nRate how well this slide page explains \"" ++ query ++
  "\" on a scale of 1-5. 1 = barely mentions it, 5 = thorough explanation. " ++
  "Reply with just the number.\n\nSlide text:\n" ++ pyTake text 2000

/-- `_llm_relevance_score` in `main.py`: ask the external judge, parse the
first character of the stripped reply as an integer and clamp it to
`[1, 5]`; any failure (judge error, empty reply, non-digit first character)
yields the neutral fallback 3. -/
def _llm_relevance_score (judge : String → Except String String)
    (query text : String) : ℕ :=
  match judge (ratingPrompt query text) with
  | .error _ => 3
  | .ok reply =>
    match (pyStrip reply).data.head? with
    | none => 3
    | some c => if c.isDigit then max 1 (min 5 (c.toNat - 48)) else 3

/-- Floor of a rational, computed as Euclidean division of numerator by
denominator (agrees with `Int.floor`, see `ratFloor_eq_floor`). -/
def ratFloor (q : ℚ) : ℤ := q.num / (q.den : ℤ)

/-- Round-half-to-even to an integer (Python `round`). -/
def roundHalfEven (q : ℚ) : ℤ :=
  let f := ratFloor q
  let frac := q - f
  if frac < 1/2 then f
  else if 1/2 < frac then f + 1
  else if f % 2 = 0 then f else f + 1

/-- Python `round(x, 4)`. -/
def round4 (q : ℚ) : ℚ := (roundHalfEven (q * 10000) : ℚ) / 10000

/-- `" ".join(text[:300].split())`, plus an ellipsis when the full text
exceeds 300 characters. -/
def snippetOf (text : String) : String :=
  let s := joinSep " " (pyWords (pyTake text 300))
  if text.length > 300 then s ++ "..." else s

/-- One hit of the raw query turned into a `SearchResult`
(lines 215-234 of `main.py`): `similarity = 1 - distance`, rounded to 4
decimal places. -/
def mkSearchResult (dist : Entry → ℚ) (e : Entry) : SearchResult :=
  let distance := dist e
  let similarity := 1 - distance
  ⟨e.metadata.file_path, e.metadata.page_number, snippetOf e.document,
    e.document, round4 similarity⟩

/-- The metadata filter both read paths pass to `collection.query`:
`where={"file_path": {"$ne": "__root__"}}`. -/
def notRoot (e : Entry) : Bool := e.metadata.file_path != "__root__"

/-- The optional LLM re-ranking pass (lines 240-246 of `main.py`): replace
each score by `0.6 * similarity + 0.4 * (llm_score / 5)` rounded to 4
decimal places, then stable-sort descending by the combined score. -/
def rerankPass (judge : String → Except String String) (query : String)
    (results : List SearchResult) : List SearchResult :=
  sortedBy (fun a b => decide (b.similarity_score ≤ a.similarity_score))
    (results.map fun r =>
      let llm_score := _llm_relevance_score judge query r.full_text
      let combined := (6 : ℚ)/10 * r.similarity_score + 4/10 * ((llm_score : ℚ) / 5)
      { r with similarity_score := round4 combined })

/-- `POST /search` (`api_search` in `main.py`): reject blank queries, fail
when no collection exists, query `n_results + 1` neighbors with the
root-marker filter, convert hits, truncate to `n_results`, optionally
rerank. -/
def api_search (store : Option Collection) (dist : Entry → ℚ) (query : String)
    (n_results : ℕ) (rerank : Bool) (judge : String → Except String String) :
    Except String SearchResponse :=
  let q := pyStrip query
  if q = "" then .error "Query cannot be empty"
  else
    match store with
    | none => .error "No index found. Please index a folder first."
    | some coll =>
      let raw := coll.query dist (n_results + 1) notRoot
      let results := raw.map (mkSearchResult dist)
      let results := results.take n_results
      let results := if rerank && !results.isEmpty then rerankPass judge q results
                     else results
      .ok ⟨q, results⟩

/-- An apostrophe character, spelled out for use inside prompt literals. -/
def apos : String := ⟨[Char.ofNat 39]⟩

/-- The system prompt of `POST /chat`. -/
def chatSystemPrompt (context_block : String) : String :=
  "/no_think\nYou are LectureLens, an AI assistant that helps students " ++
  "understand their lecture slides. Answer based on the slide content " ++
  "provided below. Cite which file and page number your answer comes from " ++
  "using [File, Page N] format. If the slides don" ++ apos ++
  "t contain enough information, say so honestly.\n\nSlide content:\n" ++
  context_block

/-- `POST /chat` (`api_chat` in `main.py`): retrieve `n_context + 1`
candidates with the root filter, keep the first `n_context`, build the
cited context block and the message list (system prompt, last 10 history
turns, the question), and call the external chat model. -/
def api_chat (store : Option Collection) (dist : Entry → ℚ) (question : String)
    (history : List ChatMsg) (n_context : ℕ)
    (chatModel : List ChatMsg → Except String String) :
    Except String ChatResponse :=
  let q := pyStrip question
  if q = "" then .error "Question cannot be empty"
  else
    match store with
    | none => .error "No index found. Please index a folder first."
    | some coll =>
      let raw := coll.query dist (n_context + 1) notRoot
      let picked := raw.take n_context
      let sources := picked.map fun e =>
        ChatSource.mk e.metadata.file_path e.metadata.page_number
      let context_parts := picked.map fun e =>
        "[Source: " ++ e.metadata.file_path ++ ", Page " ++
          decStr e.metadata.page_number ++ "]\n" ++ pyTake e.document 1500
      let context_block := joinSep "\n\n---\n\n" context_parts
      let messages := ChatMsg.mk "system" (chatSystemPrompt context_block) ::
        (history.drop (history.length - 10) ++ [ChatMsg.mk "user" q])
      match chatModel messages with
      | .error e => .error ("LLM error: " ++ e)
      | .ok answer => .ok ⟨pyStrip answer, sources⟩

/-- Value of a decimal digit string (left inverse of `decDigits`, used to
prove ids unambiguous). -/
def decVal (l : List Char) : ℕ :=
  l.foldl (fun a c => 10 * a + (c.toNat - 48)) 0

/-- The entries one batch-loop iteration passes to `collection.add`, with
the embedding vectors zipped onto the pages by position. -/
def batchEntries (embed : List String → List (List ℚ)) (batch : List PageRec) :
    List Entry :=
  mkEntries (batch.map fun p => pageId p.file_path p.page_number)
    (batch.map (·.text)) (batch.map pageMeta) (embed (batch.map (·.text)))

/-! ## Lemmas: decimal digits and page ids -/

lemma isDigit_ofNat_digit (d : ℕ) (h : d < 10) :
    (Char.ofNat (48 + d)).isDigit = true := by
  interval_cases d <;> decide

lemma toNat_ofNat_digit (d : ℕ) (h : d < 10) :
    (Char.ofNat (48 + d)).toNat = 48 + d := by
  interval_cases d <;> decide

lemma decDigitsGo_ne_nil : ∀ (fuel n : ℕ), n < fuel → decDigitsGo fuel n ≠ [] := by
  intro fuel
  induction fuel with
  | zero => intro n h; omega
  | succ fuel ih =>
    intro n h
    simp only [decDigitsGo]
    split <;> simp

lemma decDigitsGo_all_digit : ∀ (fuel n : ℕ), n < fuel →
    ∀ c ∈ decDigitsGo fuel n, c.isDigit = true := by
  intro fuel
  induction fuel with
  | zero => intro n h; omega
  | succ fuel ih =>
    intro n h c hc
    simp only [decDigitsGo] at hc
    split at hc
    · next hn =>
      simp only [List.mem_singleton] at hc
      subst hc
      exact isDigit_ofNat_digit n hn
    · next hn =>
      rcases List.mem_append.mp hc with hc | hc
      · exact ih (n / 10) (by omega) c hc
      · simp only [List.mem_singleton] at hc
        subst hc
        exact isDigit_ofNat_digit (n % 10) (Nat.mod_lt n (by omega))

lemma decVal_decDigitsGo : ∀ (fuel n : ℕ), n < fuel →
    decVal (decDigitsGo fuel n) = n := by
  intro fuel
  induction fuel with
  | zero => intro n h; omega
  | succ fuel ih =>
    intro n h
    simp only [decDigitsGo]
    split
    · next hn => simp [decVal, toNat_ofNat_digit n hn]
    · next hn =>
      simp only [decVal, List.foldl_append, List.foldl_cons, List.foldl_nil]
      rw [show List.foldl (fun a c => 10 * a + (c.toNat - 48)) 0
          (decDigitsGo fuel (n / 10)) = decVal (decDigitsGo fuel (n / 10))
          from rfl, ih (n / 10) (by omega),
        toNat_ofNat_digit (n % 10) (Nat.mod_lt n (by omega))]
      omega

lemma decDigits_ne_nil (n : ℕ) : decDigits n ≠ [] :=
  decDigitsGo_ne_nil (n + 1) n (by omega)

lemma decDigits_all_digit (n : ℕ) : ∀ c ∈ decDigits n, c.isDigit = true :=
  decDigitsGo_all_digit (n + 1) n (by omega)

lemma decVal_decDigits (n : ℕ) : decVal (decDigits n) = n :=
  decVal_decDigitsGo (n + 1) n (by omega)

lemma decDigits_inj {m n : ℕ} (h : decDigits m = decDigits n) : m = n := by
  rw [← decVal_decDigits m, ← decVal_decDigits n, h]

lemma takeWhile_append_all {α : Type} {p : α → Bool} :
    ∀ {A : List α} {x : α} {B : List α}, (∀ c ∈ A, p c = true) → p x = false →
      (A ++ x :: B).takeWhile p = A := by
  intro A
  induction A with
  | nil =>
    intro x B _ hx
    simp [List.takeWhile_cons, hx]
  | cons a A ih =>
    intro x B hA hx
    have ha : p a = true := hA a (by simp)
    simp only [List.cons_append, List.takeWhile_cons, ha, if_true]
    rw [ih (fun c hc => hA c (by simp [hc])) hx]

lemma dropWhile_append_all {α : Type} {p : α → Bool} :
    ∀ {A : List α} {x : α} {B : List α}, (∀ c ∈ A, p c = true) → p x = false →
      (A ++ x :: B).dropWhile p = x :: B := by
  intro A
  induction A with
  | nil =>
    intro x B _ hx
    simp [List.dropWhile_cons, hx]
  | cons a A ih =>
    intro x B hA hx
    have ha : p a = true := hA a (by simp)
    simp only [List.cons_append, List.dropWhile_cons, ha, if_true]
    exact ih (fun c hc => hA c (by simp [hc])) hx

lemma pageId_data (f : String) (n : ℕ) :
    (pageId f n).data = f.data ++ ("::page_".data ++ decDigits n) := by
  show ((f ++ "::page_") ++ decStr n).data = _
  rw [String.data_append, String.data_append]
  simp [decStr]

lemma pageId_ne_root (f : String) (n : ℕ) : pageId f n ≠ "__root__" := by
  intro h
  have hd := congrArg String.data h
  rw [pageId_data] at hd
  have hmem : ':' ∈ f.data ++ ("::page_".data ++ decDigits n) :=
    List.mem_append_right _ (List.mem_append_left _ (by decide))
  rw [hd] at hmem
  exact absurd hmem (by decide)

lemma pageId_inj {f₁ f₂ : String} {n₁ n₂ : ℕ}
    (h : pageId f₁ n₁ = pageId f₂ n₂) : f₁ = f₂ ∧ n₁ = n₂ := by
  have hd := congrArg String.data h
  rw [pageId_data, pageId_data] at hd
  have hr := congrArg List.reverse hd
  simp only [List.reverse_append] at hr
  have hsep : "::page_".data.reverse = '_' :: "egap::".data := by decide
  rw [hsep] at hr
  simp only [List.append_assoc, List.cons_append] at hr
  have hall₁ : ∀ c ∈ (decDigits n₁).reverse, Char.isDigit c = true :=
    fun c hc => decDigits_all_digit n₁ c (List.mem_reverse.mp hc)
  have hall₂ : ∀ c ∈ (decDigits n₂).reverse, Char.isDigit c = true :=
    fun c hc => decDigits_all_digit n₂ c (List.mem_reverse.mp hc)
  have hu : Char.isDigit '_' = false := by decide
  have htake := congrArg (List.takeWhile Char.isDigit) hr
  rw [takeWhile_append_all hall₁ hu, takeWhile_append_all hall₂ hu] at htake
  have hdrop := congrArg (List.dropWhile Char.isDigit) hr
  rw [dropWhile_append_all hall₁ hu, dropWhile_append_all hall₂ hu] at hdrop
  have hn : n₁ = n₂ :=
    decDigits_inj (List.reverse_injective htake)
  have hf : f₁ = f₂ := by
    simp only [List.cons.injEq, List.nil_append, true_and] at hdrop
    exact String.ext (List.reverse_injective hdrop)
  exact ⟨hf, hn⟩

/-! ## Lemmas: the stable insertion sort -/

lemma mem_insertSorted {α : Type} (le : α → α → Bool) (x : α) :
    ∀ {l : List α} {a : α}, a ∈ insertSorted le x l ↔ a = x ∨ a ∈ l := by
  intro l
  induction l with
  | nil => simp [insertSorted]
  | cons y ys ih =>
    intro a
    simp only [insertSorted]
    split
    · simp [List.mem_cons]
    · simp only [List.mem_cons, ih]
      tauto

lemma insertSorted_perm {α : Type} (le : α → α → Bool) (x : α) :
    ∀ (l : List α), (insertSorted le x l).Perm (x :: l)
  | [] => .refl _
  | y :: ys => by
    simp only [insertSorted]
    split
    · exact .refl _
    · exact ((insertSorted_perm le x ys).cons y).trans (List.Perm.swap x y ys)

lemma sortedBy_perm {α : Type} (le : α → α → Bool) :
    ∀ (l : List α), (sortedBy le l).Perm l
  | [] => .refl _
  | x :: xs =>
    (insertSorted_perm le x (sortedBy le xs)).trans
      ((sortedBy_perm le xs).cons x)

lemma mem_sortedBy {α : Type} (le : α → α → Bool) (l : List α) (a : α) :
    a ∈ sortedBy le l ↔ a ∈ l :=
  (sortedBy_perm le l).mem_iff

lemma length_sortedBy {α : Type} (le : α → α → Bool) (l : List α) :
    (sortedBy le l).length = l.length :=
  (sortedBy_perm le l).length_eq

lemma pairwise_insertSorted {α : Type} {le : α → α → Bool}
    (htot : ∀ a b, le a b = true ∨ le b a = true)
    (htrans : ∀ a b c, le a b = true → le b c = true → le a c = true)
    (x : α) :
    ∀ {l : List α}, List.Pairwise (fun a b => le a b = true) l →
      List.Pairwise (fun a b => le a b = true) (insertSorted le x l) := by
  intro l
  induction l with
  | nil => intro _; simp [insertSorted]
  | cons y ys ih =>
    intro hp
    rw [List.pairwise_cons] at hp
    simp only [insertSorted]
    split
    · next hxy =>
      rw [List.pairwise_cons]
      refine ⟨?_, List.Pairwise.cons hp.1 hp.2⟩
      intro b hb
      rcases List.mem_cons.mp hb with rfl | hb
      · exact hxy
      · exact htrans x y b hxy (hp.1 b hb)
    · next hxy =>
      have hyx : le y x = true := by
        rcases htot x y with h | h
        · exact absurd h (by simp [hxy])
        · exact h
      rw [List.pairwise_cons]
      refine ⟨?_, ih hp.2⟩
      intro b hb
      rcases (mem_insertSorted le x).mp hb with rfl | hb
      · exact hyx
      · exact hp.1 b hb

lemma sortedBy_pairwise {α : Type} {le : α → α → Bool}
    (htot : ∀ a b, le a b = true ∨ le b a = true)
    (htrans : ∀ a b c, le a b = true → le b c = true → le a c = true) :
    ∀ (l : List α), List.Pairwise (fun a b => le a b = true) (sortedBy le l)
  | [] => .nil
  | x :: xs =>
    pairwise_insertSorted htot htrans x (sortedBy_pairwise htot htrans xs)

lemma filter_insertSorted_neg {α : Type} {le : α → α → Bool} {p : α → Bool}
    {x : α} (hx : p x = false) :
    ∀ (l : List α), (insertSorted le x l).filter p = l.filter p := by
  intro l
  induction l with
  | nil => simp [insertSorted, hx]
  | cons y ys ih =>
    simp only [insertSorted]
    split
    · simp [List.filter_cons, hx]
    · simp only [List.filter_cons]
      split <;> rw [ih]

lemma filter_insertSorted_pos {α : Type} {le : α → α → Bool} {p : α → Bool}
    {x : α} (hx : p x = true)
    (hskip : ∀ y, le x y = false → p y = false) :
    ∀ (l : List α), (insertSorted le x l).filter p = x :: l.filter p := by
  intro l
  induction l with
  | nil => simp [insertSorted, hx]
  | cons y ys ih =>
    simp only [insertSorted]
    split
    · simp [List.filter_cons, hx]
    · next hxy =>
      have hpy : p y = false := hskip y (by simpa using hxy)
      simp only [List.filter_cons, hpy, if_false, Bool.false_eq_true, ih]

/-- Stability of the sort, stated through filters: elements singled out by a
predicate that no strictly-greater element satisfies keep their relative
order. -/
lemma sortedBy_filter_stable {α : Type} {le : α → α → Bool} {p : α → Bool}
    (h : ∀ x, p x = true → ∀ y, le x y = false → p y = false) :
    ∀ (l : List α), (sortedBy le l).filter p = l.filter p := by
  intro l
  induction l with
  | nil => rfl
  | cons x xs ih =>
    show (insertSorted le x (sortedBy le xs)).filter p = _
    cases hpx : p x with
    | true =>
      rw [filter_insertSorted_pos hpx (h x hpx), ih, List.filter_cons, hpx]
      simp
    | false =>
      rw [filter_insertSorted_neg hpx, ih, List.filter_cons, hpx]
      simp

lemma insertSorted_all_le {α : Type} {le : α → α → Bool} {x : α}
    {l : List α} (h : ∀ z ∈ l, le x z = true) :
    insertSorted le x l = x :: l := by
  cases l with
  | nil => rfl
  | cons y ys =>
    simp only [insertSorted]
    rw [if_pos (h y (by simp))]

lemma filter_insertSorted_comm {α : Type} {le : α → α → Bool} {p : α → Bool}
    (htrans : ∀ a b c, le a b = true → le b c = true → le a c = true)
    {x : α} (hx : p x = true) :
    ∀ {l : List α}, List.Pairwise (fun a b => le a b = true) l →
      (insertSorted le x l).filter p = insertSorted le x (l.filter p) := by
  intro l
  induction l with
  | nil => intro _; simp [insertSorted, hx]
  | cons y ys ih =>
    intro hp
    rw [List.pairwise_cons] at hp
    simp only [insertSorted]
    split
    · next hxy =>
      cases hpy : p y with
      | true =>
        rw [List.filter_cons_of_pos (by simp [hx]), List.filter_cons_of_pos
          (by simp [hpy])]
        simp [insertSorted, hxy]
      | false =>
        rw [List.filter_cons_of_pos (by simp [hx]),
          List.filter_cons_of_neg (by simp [hpy])]
        refine (insertSorted_all_le ?_).symm
        intro z hz
        have hzy : z ∈ ys := List.mem_of_mem_filter hz
        exact htrans x y z hxy (hp.1 z hzy)
    · next hxy =>
      cases hpy : p y with
      | true =>
        rw [List.filter_cons_of_pos (by simp [hpy]),
          List.filter_cons_of_pos (by simp [hpy])]
        simp only [insertSorted]
        rw [if_neg (by simp [hxy]), ih hp.2]
      | false =>
        rw [List.filter_cons_of_neg (by simp [hpy]),
          List.filter_cons_of_neg (by simp [hpy]), ih hp.2]

/-- Sorting commutes with filtering (both via the stable insertion sort). -/
lemma sortedBy_filter_comm {α : Type} {le : α → α → Bool} {p : α → Bool}
    (htot : ∀ a b, le a b = true ∨ le b a = true)
    (htrans : ∀ a b c, le a b = true → le b c = true → le a c = true) :
    ∀ (l : List α), (sortedBy le l).filter p = sortedBy le (l.filter p) := by
  intro l
  induction l with
  | nil => rfl
  | cons x xs ih =>
    show (insertSorted le x (sortedBy le xs)).filter p = _
    cases hpx : p x with
    | true =>
      rw [filter_insertSorted_comm htrans hpx (sortedBy_pairwise htot htrans _),
        ih, List.filter_cons_of_pos (by simp [hpx])]
      rfl
    | false =>
      rw [filter_insertSorted_neg hpx, ih,
        List.filter_cons_of_neg (by simp [hpx])]

/-! ## Lemmas: chunking -/

lemma chunksGo_flatten {α : Type} (k : ℕ) (hk : 0 < k) :
    ∀ (fuel : ℕ) (l : List α), l.length ≤ fuel →
      (chunksGo k fuel l).flatten = l := by
  intro fuel
  induction fuel with
  | zero =>
    intro l h
    cases l with
    | nil => rfl
    | cons x xs => simp at h
  | succ fuel ih =>
    intro l h
    cases l with
    | nil => rfl
    | cons x xs =>
      simp only [chunksGo, List.flatten_cons]
      rw [ih ((x :: xs).drop k) (by simp at h ⊢; omega)]
      exact List.take_append_drop k (x :: xs)

lemma chunksOf_flatten {α : Type} (k : ℕ) (hk : 0 < k) (l : List α) :
    (chunksOf k l).flatten = l :=
  chunksGo_flatten k hk l.length l le_rfl

lemma chunksGo_length_le {α : Type} (k : ℕ) :
    ∀ (fuel : ℕ) (l : List α), ∀ b ∈ chunksGo k fuel l, b.length ≤ k := by
  intro fuel
  induction fuel with
  | zero =>
    intro l b hb
    simp [chunksGo] at hb
  | succ fuel ih =>
    intro l b hb
    cases l with
    | nil => simp [chunksGo] at hb
    | cons x xs =>
      simp only [chunksGo, List.mem_cons] at hb
      rcases hb with rfl | hb
      · exact List.length_take_le k (x :: xs)
      · exact ih ((x :: xs).drop k) b hb

lemma chunksOf_length_le {α : Type} (k : ℕ) (l : List α) :
    ∀ b ∈ chunksOf k l, b.length ≤ k :=
  chunksGo_length_le k l.length l

lemma filterMap_if_eq_map_filter {α β : Type} (p : α → Bool) (g : α → β) :
    ∀ (l : List α),
      (l.filterMap fun x => if p x then some (g x) else none) =
        (l.filter p).map g := by
  intro l
  induction l with
  | nil => rfl
  | cons x xs ih =>
    cases hpx : p x with
    | true =>
      rw [List.filterMap_cons, List.filter_cons_of_pos (by simp [hpx])]
      simp only [hpx, if_true, List.map_cons, ih]
    | false =>
      rw [List.filterMap_cons, List.filter_cons_of_neg (by simp [hpx])]
      simp only [hpx, if_false, ih]
      simp

/-! ## Lemmas: the string comparator is a total preorder -/

lemma charListLe_total : ∀ (a b : List Char),
    charListLe a b = true ∨ charListLe b a = true := by
  intro a
  induction a with
  | nil => intro b; exact Or.inl rfl
  | cons c cs ih =>
    intro b
    cases b with
    | nil => exact Or.inr rfl
    | cons d ds =>
      rcases Nat.lt_trichotomy c.toNat d.toNat with h | h | h
      · left; simp [charListLe, h]
      · have h1 : ¬ c.toNat < d.toNat := by omega
        have h2 : ¬ d.toNat < c.toNat := by omega
        simpa [charListLe, h1, h2] using ih ds
      · right; simp [charListLe, h]

lemma charListLe_trans : ∀ (a b c : List Char), charListLe a b = true →
    charListLe b c = true → charListLe a c = true := by
  intro a
  induction a with
  | nil => intros; rfl
  | cons x xs ih =>
    intro b c hab hbc
    cases b with
    | nil => simp [charListLe] at hab
    | cons y ys =>
      cases c with
      | nil => simp [charListLe] at hbc
      | cons z zs =>
        simp only [charListLe] at hab hbc ⊢
        by_cases h1 : x.toNat < y.toNat
        · by_cases h2 : y.toNat < z.toNat
          · rw [if_pos (by omega)]
          · by_cases h3 : z.toNat < y.toNat
            · simp [h2, h3] at hbc
            · rw [if_pos (by omega)]
        · by_cases h4 : y.toNat < x.toNat
          · simp [h1, h4] at hab
          · simp only [h1, if_false, h4] at hab
            by_cases h2 : y.toNat < z.toNat
            · rw [if_pos (by omega)]
            · by_cases h3 : z.toNat < y.toNat
              · simp [h2, h3] at hbc
              · simp only [h2, if_false, h3] at hbc
                rw [if_neg (by omega), if_neg (by omega)]
                exact ih ys zs (by simpa using hab) (by simpa using hbc)

lemma strLeB_total (a b : String) : strLeB a b = true ∨ strLeB b a = true :=
  charListLe_total a.data b.data

lemma strLeB_trans (a b c : String) (h1 : strLeB a b = true)
    (h2 : strLeB b c = true) : strLeB a c = true :=
  charListLe_trans a.data b.data c.data h1 h2

/-! ## Lemmas: floor bridge, query and rerank -/

lemma ratFloor_eq_floor (q : ℚ) : ratFloor q = ⌊q⌋ := Rat.floor_def.symm

lemma mem_query {c : Collection} {dist : Entry → ℚ} {k : ℕ}
    {keep : Entry → Bool} {e : Entry} (h : e ∈ c.query dist k keep) :
    keep e = true := by
  rw [Collection.query] at h
  have h1 := List.mem_of_mem_take h
  rw [mem_sortedBy] at h1
  exact (List.mem_filter.mp h1).2

lemma length_query (c : Collection) (dist : Entry → ℚ) (k : ℕ)
    (keep : Entry → Bool) : (c.query dist k keep).length ≤ k := by
  rw [Collection.query]
  exact List.length_take_le k _

lemma rerankPass_length (judge : String → Except String String) (q : String)
    (results : List SearchResult) :
    (rerankPass judge q results).length = results.length := by
  rw [rerankPass, length_sortedBy, List.length_map]

lemma mem_rerankPass {judge : String → Except String String} {q : String}
    {results : List SearchResult} {r : SearchResult}
    (h : r ∈ rerankPass judge q results) :
    ∃ s ∈ results, r.file_path = s.file_path ∧ r.page_number = s.page_number := by
  rw [rerankPass, mem_sortedBy] at h
  rcases List.mem_map.mp h with ⟨s, hs, rfl⟩
  exact ⟨s, hs, rfl, rfl⟩

/-! ## Lemmas: extractors emit strictly increasing page numbers -/

lemma pdfPagesGo_sorted :
    ∀ (ts : List String) (i : ℕ),
      List.Pairwise (· < ·) ((pdfPagesGo i ts).map Page.page_number) ∧
      ∀ p ∈ pdfPagesGo i ts, i < p.page_number := by
  intro ts
  induction ts with
  | nil => intro i; simp [pdfPagesGo]
  | cons t ts ih =>
    intro i
    simp only [pdfPagesGo]
    split
    · constructor
      · simp only [List.map_append, List.map_cons, List.map_nil,
          List.singleton_append, List.pairwise_cons]
        refine ⟨?_, (ih (i + 1)).1⟩
        intro b hb
        rcases List.mem_map.mp hb with ⟨p, hp, rfl⟩
        exact (ih (i + 1)).2 p hp
      · intro p hp
        rcases List.mem_append.mp hp with hp | hp
        · simp only [List.mem_singleton] at hp
          subst hp
          show i < i + 1
          omega
        · have := (ih (i + 1)).2 p hp
          omega
    · simp only [List.nil_append]
      refine ⟨(ih (i + 1)).1, ?_⟩
      intro p hp
      have := (ih (i + 1)).2 p hp
      omega

lemma pptxPagesGo_sorted :
    ∀ (ss : List (List Shape)) (i : ℕ),
      List.Pairwise (· < ·) ((pptxPagesGo i ss).map Page.page_number) ∧
      ∀ p ∈ pptxPagesGo i ss, i ≤ p.page_number := by
  intro ss
  induction ss with
  | nil => intro i; simp [pptxPagesGo]
  | cons s ss ih =>
    intro i
    simp only [pptxPagesGo]
    split
    · constructor
      · simp only [List.map_append, List.map_cons, List.map_nil,
          List.singleton_append, List.pairwise_cons]
        refine ⟨?_, (ih (i + 1)).1⟩
        intro b hb
        rcases List.mem_map.mp hb with ⟨p, hp, rfl⟩
        have := (ih (i + 1)).2 p hp
        omega
      · intro p hp
        rcases List.mem_append.mp hp with hp | hp
        · simp only [List.mem_singleton] at hp
          subst hp
          show i ≤ i
          omega
        · have := (ih (i + 1)).2 p hp
          omega
    · simp only [List.nil_append]
      refine ⟨(ih (i + 1)).1, ?_⟩
      intro p hp
      have := (ih (i + 1)).2 p hp
      omega

/-! ## Lemmas: the scanner produces unambiguous (file, page) pairs -/

lemma scanFiles_nodup :
    ∀ (l : List FileNode) (recs : List PageRec),
      List.Pairwise (fun a b => a.rel ≠ b.rel) l →
      (∀ f ∈ l, ∀ ps, f.extract = .ok ps →
        List.Pairwise (· < ·) (ps.map Page.page_number)) →
      scanFiles l = .ok recs →
      (recs.map fun p => (p.file_path, p.page_number)).Nodup ∧
      ∀ p ∈ recs, ∃ f ∈ l, supportedFile f = true ∧ p.file_path = f.rel := by
  intro l
  induction l with
  | nil =>
    intro recs _ _ hscan
    simp only [scanFiles, Except.ok.injEq] at hscan
    subst hscan
    simp
  | cons f rest ih =>
    intro recs hrel hext hscan
    rw [List.pairwise_cons] at hrel
    simp only [scanFiles] at hscan
    split at hscan
    · next hsup =>
      cases hex : f.extract with
      | error e => rw [hex] at hscan; cases hscan
      | ok pages =>
        rw [hex] at hscan
        cases hrest : scanFiles rest with
        | error e => rw [hrest] at hscan; cases hscan
        | ok restRecs =>
          rw [hrest] at hscan
          simp only [Except.ok.injEq] at hscan
          subst hscan
          have hihyp := ih restRecs hrel.2
            (fun g hg ps hps => hext g (by simp [hg]) ps hps) hrest
          have hpn : List.Pairwise (· < ·) (pages.map Page.page_number) :=
            hext f (by simp) pages hex
          constructor
          · rw [List.map_append, List.nodup_append]
            refine ⟨?_, hihyp.1, ?_⟩
            · rw [List.map_map]
              apply List.Pairwise.map
                (R := fun (a b : Page) => a.page_number < b.page_number)
              · intro a b hab
                simp only [Function.comp]
                intro hq
                have := congrArg Prod.snd hq
                simp at this
                omega
              · exact (List.pairwise_map.mp hpn)
            · intro q hq hq2
              rw [List.map_map] at hq
              rcases List.mem_map.mp hq with ⟨pg, _, rfl⟩
              rcases List.mem_map.mp hq2 with ⟨pr, hpr, hpr2⟩
              rcases hihyp.2 pr hpr with ⟨g, hg, _, hgrel⟩
              have : f.rel = pr.file_path := by
                have := congrArg Prod.fst hpr2
                simpa using this.symm
              exact hrel.1 g hg (by rw [this, hgrel])
          · intro p hp
            rcases List.mem_append.mp hp with hp | hp
            · rcases List.mem_map.mp hp with ⟨pg, _, rfl⟩
              exact ⟨f, by simp, hsup, rfl⟩
            · rcases hihyp.2 p hp with ⟨g, hg, hgs, hgr⟩
              exact ⟨g, by simp [hg], hgs, hgr⟩
    · next hsup =>
      have hihyp := ih recs hrel.2
        (fun g hg ps hps => hext g (by simp [hg]) ps hps) hscan
      refine ⟨hihyp.1, ?_⟩
      intro p hp
      rcases hihyp.2 p hp with ⟨g, hg, hgs, hgr⟩
      exact ⟨g, by simp [hg], hgs, hgr⟩

lemma scan_folder_nodup {fs : Folder} {recs : List PageRec}
    (hrel : List.Pairwise (fun a b : FileNode => a.rel ≠ b.rel) fs)
    (hext : ∀ f ∈ fs, ∀ ps, f.extract = .ok ps →
      List.Pairwise (· < ·) (ps.map Page.page_number))
    (hscan : scan_folder fs = .ok recs) :
    (recs.map fun p => (p.file_path, p.page_number)).Nodup ∧
    (recs.map fun p => pageId p.file_path p.page_number).Nodup ∧
    ∀ p ∈ recs, ∃ f ∈ fs, supportedFile f = true ∧ p.file_path = f.rel := by
  have hrel' : List.Pairwise (fun a b : FileNode => a.rel ≠ b.rel) (sortFiles fs) :=
    ((sortedBy_perm _ fs).pairwise_iff fun h => h.symm).mpr hrel
  have hext' : ∀ f ∈ sortFiles fs, ∀ ps, f.extract = .ok ps →
      List.Pairwise (· < ·) (ps.map Page.page_number) :=
    fun f hf => hext f ((mem_sortedBy _ fs f).mp hf)
  have h := scanFiles_nodup (sortFiles fs) recs hrel' hext' hscan
  refine ⟨h.1, ?_, ?_⟩
  · have : (recs.map fun p => pageId p.file_path p.page_number) =
        (recs.map fun p => (p.file_path, p.page_number)).map
          fun q => pageId q.1 q.2 := by
      rw [List.map_map]
      rfl
    rw [this]
    apply List.Nodup.map _ h.1
    intro a b hab
    have := pageId_inj hab
    exact Prod.ext this.1 this.2
  · intro p hp
    rcases h.2 p hp with ⟨f, hf, hfs, hfr⟩
    exact ⟨f, (mem_sortedBy _ fs f).mp hf, hfs, hfr⟩

/-! ## Lemmas: the build path appends freshly-identified entries -/

lemma mkEntries_map_id :
    ∀ (is ds : List String) (ms : List EntryMeta) (vs : List (List ℚ)),
      is.length = ds.length → is.length = ms.length → is.length = vs.length →
      (mkEntries is ds ms vs).map (·.id) = is := by
  intro is
  induction is with
  | nil => intro ds ms vs _ _ _; cases ds <;> cases ms <;> cases vs <;> rfl
  | cons i is ih =>
    intro ds ms vs h1 h2 h3
    cases ds with
    | nil => simp at h1
    | cons d ds =>
      cases ms with
      | nil => simp at h2
      | cons m ms =>
        cases vs with
        | nil => simp at h3
        | cons v vs =>
          simp only [mkEntries, List.map_cons, List.cons.injEq, true_and]
          exact ih ds ms vs (by simpa using h1) (by simpa using h2)
            (by simpa using h3)

lemma mkEntries_map_meta :
    ∀ (is ds : List String) (ms : List EntryMeta) (vs : List (List ℚ)),
      is.length = ds.length → is.length = ms.length → is.length = vs.length →
      (mkEntries is ds ms vs).map (·.metadata) = ms := by
  intro is
  induction is with
  | nil =>
    intro ds ms vs _ h2 _
    cases ms with
    | nil => cases ds <;> cases vs <;> rfl
    | cons m ms => simp at h2
  | cons i is ih =>
    intro ds ms vs h1 h2 h3
    cases ds with
    | nil => simp at h1
    | cons d ds =>
      cases ms with
      | nil => simp at h2
      | cons m ms =>
        cases vs with
        | nil => simp at h3
        | cons v vs =>
          simp only [mkEntries, List.map_cons, List.cons.injEq, true_and]
          exact ih ds ms vs (by simpa using h1) (by simpa using h2)
            (by simpa using h3)

lemma mkEntries_getElem? :
    ∀ (is : List String) (k : ℕ) (ds : List String) (ms : List EntryMeta)
      (vs : List (List ℚ)) (i d : String) (m : EntryMeta) (v : List ℚ),
      is[k]? = some i → ds[k]? = some d → ms[k]? = some m → vs[k]? = some v →
      (mkEntries is ds ms vs)[k]? = some ⟨i, d, m, v⟩ := by
  intro is
  induction is with
  | nil => intro k ds ms vs i d m v hi; simp at hi
  | cons i0 is ih =>
    intro k ds ms vs i d m v hi hd hm hv
    cases ds with
    | nil => simp at hd
    | cons d0 ds =>
      cases ms with
      | nil => simp at hm
      | cons m0 ms =>
        cases vs with
        | nil => simp at hv
        | cons v0 vs =>
          cases k with
          | zero =>
            simp only [List.getElem?_cons_zero, Option.some.injEq] at hi hd hm hv
            subst hi; subst hd; subst hm; subst hv
            simp [mkEntries]
          | succ k =>
            simp only [List.getElem?_cons_succ] at hi hd hm hv
            simp only [mkEntries, List.getElem?_cons_succ]
            exact ih k ds ms vs i d m v hi hd hm hv

lemma upsertEntry_fresh (es : List Entry) (e : Entry)
    (h : ∀ x ∈ es, x.id ≠ e.id) : upsertEntry es e = es ++ [e] := by
  rw [upsertEntry, if_neg]
  simp only [List.any_eq_true, not_exists, not_and]
  intro x hx
  simp [h x hx]

lemma foldl_upsert_fresh :
    ∀ (news : List Entry) (es : List Entry),
      (news.map (·.id)).Nodup →
      (∀ x ∈ news, ∀ y ∈ es, y.id ≠ x.id) →
      news.foldl upsertEntry es = es ++ news := by
  intro news
  induction news with
  | nil => intro es _ _; simp
  | cons nw rest ih =>
    intro es hnodup hdisj
    simp only [List.map_cons, List.nodup_cons] at hnodup
    simp only [List.foldl_cons]
    rw [upsertEntry_fresh es nw (fun x hx => hdisj nw (by simp) x hx)]
    rw [ih (es ++ [nw]) hnodup.2 ?_]
    · simp
    · intro x hx y hy
      rcases List.mem_append.mp hy with hy | hy
      · exact hdisj x (by simp [hx]) y hy
      · simp only [List.mem_singleton] at hy
        subst hy
        intro hcontra
        exact hnodup.1 (hcontra ▸ List.mem_map_of_mem (·.id) hx)

lemma addCall_fresh (c : Collection) (ids docs : List String)
    (metas : List EntryMeta) (embs : List (List ℚ))
    (h1 : ids.length = docs.length) (h2 : ids.length = metas.length)
    (h3 : ids.length = embs.length) (hnodup : ids.Nodup)
    (hdisj : ∀ i ∈ ids, ∀ y ∈ c.entries, y.id ≠ i) :
    Collection.addCall c ids docs metas embs =
      .ok ⟨c.entries ++ mkEntries ids docs metas embs⟩ := by
  rw [Collection.addCall, if_pos ⟨h1, h2, h3⟩]
  rw [foldl_upsert_fresh (mkEntries ids docs metas embs) c.entries]
  · rw [mkEntries_map_id ids docs metas embs h1 h2 h3]
    exact hnodup
  · intro x hx y hy
    have : x.id ∈ ids := by
      rw [← mkEntries_map_id ids docs metas embs h1 h2 h3]
      exact List.mem_map_of_mem (·.id) hx
    exact hdisj x.id this y hy

lemma buildLoop_fresh (embed : List String → List (List ℚ))
    (hlen : ∀ ts, (embed ts).length = ts.length) :
    ∀ (batches : List (List PageRec)) (coll : Collection) (seen : List String),
      ((batches.flatten.map fun p => pageId p.file_path p.page_number)).Nodup →
      (∀ p ∈ batches.flatten, ∀ y ∈ coll.entries,
        y.id ≠ pageId p.file_path p.page_number) →
      buildLoop embed batches (coll, seen) =
        .ok (⟨coll.entries ++ (batches.map (batchEntries embed)).flatten⟩,
          batches.flatten.foldl (fun s p => insertUniq s p.file_path) seen) := by
  intro batches
  induction batches with
  | nil => intro coll seen _ _; simp [buildLoop]
  | cons b bs ih =>
    intro coll seen hnodup hdisj
    simp only [List.flatten_cons, List.map_append] at hnodup
    rw [List.nodup_append] at hnodup
    have hadd := addCall_fresh coll
      (b.map fun p => pageId p.file_path p.page_number)
      (b.map (·.text)) (b.map pageMeta) (embed (b.map (·.text)))
      (by simp) (by simp) (by simp [hlen]) hnodup.1
      (fun i hi y hy => by
        rcases List.mem_map.mp hi with ⟨p, hp, rfl⟩
        exact hdisj p (by simp [hp]) y hy)
    simp only [buildLoop, hadd]
    rw [ih ⟨coll.entries ++ mkEntries (b.map fun p => pageId p.file_path p.page_number)
      (b.map (·.text)) (b.map pageMeta) (embed (b.map (·.text)))⟩ _ hnodup.2.1 ?_]
    · simp only [List.map_cons, List.flatten_cons, Except.ok.injEq,
        Prod.mk.injEq, Collection.mk.injEq]
      constructor
      · rw [batchEntries, List.append_assoc]
      · rw [List.foldl_append]
    · intro p hp y hy
      rcases List.mem_append.mp hy with hy | hy
      · exact hdisj p (by simp [hp]) y hy
      · have hyid : y.id ∈ b.map fun p => pageId p.file_path p.page_number := by
          rw [← mkEntries_map_id (b.map fun p => pageId p.file_path p.page_number)
            (b.map (·.text)) (b.map pageMeta) (embed (b.map (·.text)))
            (by simp) (by simp) (by simp [hlen])]
          exact List.mem_map_of_mem (·.id) hy
        intro hcontra
        apply hnodup.2.2 hyid
        rw [hcontra]
        exact List.mem_map_of_mem _ hp

/-! ## Lemmas: the rebuild path of `index_folder` -/

/-- Pairwise-distinct `(file_path, page_number)` pairs give pairwise-distinct
ids. -/
lemma ids_nodup_of_pairs {recs : List PageRec}
    (h : (recs.map fun p => (p.file_path, p.page_number)).Nodup) :
    (recs.map fun p => pageId p.file_path p.page_number).Nodup := by
  have heq : (recs.map fun p => pageId p.file_path p.page_number) =
      (recs.map fun p => (p.file_path, p.page_number)).map
        fun q => pageId q.1 q.2 := by
    rw [List.map_map]
    rfl
  rw [heq]
  apply List.Nodup.map _ h
  intro a b hab
  have := pageId_inj hab
  exact Prod.ext this.1 this.2

lemma batchesOf_flatten (pages : List PageRec) :
    (batchesOf pages).flatten = pages :=
  chunksOf_flatten 32 (by omega) pages

lemma flatten_batchEntries_map_id (embed : List String → List (List ℚ))
    (hlen : ∀ ts, (embed ts).length = ts.length) (pages : List PageRec) :
    ((batchesOf pages).map (batchEntries embed)).flatten.map (·.id) =
      pages.map fun p => pageId p.file_path p.page_number := by
  rw [List.map_flatten, List.map_map]
  have hcong : (batchesOf pages).map (List.map (·.id) ∘ batchEntries embed) =
      (batchesOf pages).map
        (List.map fun p => pageId p.file_path p.page_number) := by
    apply List.map_congr_left
    intro b _
    simp only [Function.comp]
    exact mkEntries_map_id _ _ _ _ (by simp) (by simp) (by simp [hlen])
  rw [hcong, ← List.map_flatten, batchesOf_flatten]

lemma flatten_batchEntries_map_fp (embed : List String → List (List ℚ))
    (hlen : ∀ ts, (embed ts).length = ts.length) (pages : List PageRec) :
    ((batchesOf pages).map (batchEntries embed)).flatten.map
        (·.metadata.file_path) =
      pages.map (·.file_path) := by
  rw [List.map_flatten, List.map_map]
  have hcong : (batchesOf pages).map
      (List.map (·.metadata.file_path) ∘ batchEntries embed) =
      (batchesOf pages).map (List.map (·.file_path)) := by
    apply List.map_congr_left
    intro b _
    simp only [Function.comp]
    have h1 : (batchEntries embed b).map (·.metadata.file_path) =
        ((batchEntries embed b).map (·.metadata)).map (·.file_path) := by
      rw [List.map_map]
      rfl
    have h2 : (batchEntries embed b).map (·.metadata) = b.map pageMeta :=
      mkEntries_map_meta _ _ _ _ (by simp) (by simp) (by simp [hlen])
    rw [h1, h2, List.map_map]
    rfl
  rw [hcong, ← List.map_flatten, batchesOf_flatten]

/-- The full rebuild path of `index_folder`: when the fresh-check misses,
the scan succeeds with a non-empty, id-unambiguous page list, and the
embedding service is length-preserving, the call persists the root marker
followed by the (position-aligned) batch entries and reports the page count
and the sorted distinct file list. -/
lemma index_folder_build {fs : Folder} {embed : List String → List (List ℚ)}
    {store : Option Collection} {path : String} {pages : List PageRec}
    (hlen : ∀ ts, (embed ts).length = ts.length)
    (hfresh : freshCheck store (_folder_fingerprint fs) path = none)
    (hscan : scan_folder fs = .ok pages)
    (hne : pages ≠ [])
    (hnodup : (pages.map fun p => pageId p.file_path p.page_number).Nodup) :
    index_folder fs embed store path =
      .ok (some ⟨(⟨"__root__", "__root_folder__",
          rootMeta path (_folder_fingerprint fs),
          (embed ["root folder marker"]).headD []⟩ : Entry) ::
        ((batchesOf pages).map (batchEntries embed)).flatten⟩,
      ⟨"ok", pages.length,
        (pages.foldl (fun s p => insertUniq s p.file_path) []).length,
        sortStr (pages.foldl (fun s p => insertUniq s p.file_path) []), none⟩) := by
  obtain ⟨v, hv⟩ : ∃ v, embed ["root folder marker"] = [v] := by
    have hl := hlen ["root folder marker"]
    cases he : embed ["root folder marker"] with
    | nil => rw [he] at hl; simp at hl
    | cons v vs =>
      rw [he] at hl
      simp only [List.length_cons, List.length_nil] at hl
      have : vs = [] := List.length_eq_zero.mp (by omega)
      subst this
      exact ⟨v, rfl⟩
  have hroot : Collection.addCall ⟨[]⟩ ["__root__"] ["__root_folder__"]
      [rootMeta path (_folder_fingerprint fs)] [v] =
      .ok ⟨[⟨"__root__", "__root_folder__",
        rootMeta path (_folder_fingerprint fs), v⟩]⟩ := by
    rw [Collection.addCall, if_pos (by simp)]
    rfl
  have hbuild := buildLoop_fresh embed hlen (batchesOf pages)
    ⟨[⟨"__root__", "__root_folder__", rootMeta path (_folder_fingerprint fs), v⟩]⟩
    [] ?hnodup ?hdisj
  case hnodup =>
    rw [batchesOf_flatten]
    exact hnodup
  case hdisj =>
    intro p _ y hy
    simp only [List.mem_singleton] at hy
    subst hy
    exact Ne.symm (pageId_ne_root p.file_path p.page_number)
  rw [batchesOf_flatten] at hbuild
  simp only [index_folder, hfresh, hscan]
  rw [if_neg (by simp [hne])]
  rw [hv]
  simp only [List.headD_cons, List.head?_cons]
  rw [hroot]
  dsimp only
  rw [hbuild]
  simp [List.singleton_append]

/-! ## Lemmas: the FRESH early return -/

lemma scanFiles_filePath_source :
    ∀ (l : List FileNode) (recs : List PageRec), scanFiles l = .ok recs →
      ∀ p ∈ recs, ∃ f ∈ l, supportedFile f = true ∧ p.file_path = f.rel := by
  intro l
  induction l with
  | nil =>
    intro recs h
    simp only [scanFiles, Except.ok.injEq] at h
    subst h
    simp
  | cons g rest ih =>
    intro recs h
    simp only [scanFiles] at h
    split at h
    · next hg =>
      cases hex : g.extract with
      | error e => rw [hex] at h; cases h
      | ok pages =>
        rw [hex] at h
        cases hrest : scanFiles rest with
        | error e => rw [hrest] at h; cases h
        | ok restRecs =>
          rw [hrest] at h
          simp only [Except.ok.injEq] at h
          subst h
          intro p hp
          rcases List.mem_append.mp hp with hp | hp
          · rcases List.mem_map.mp hp with ⟨pg, _, rfl⟩
            exact ⟨g, by simp, hg, rfl⟩
          · rcases ih restRecs hrest p hp with ⟨f, hf, hfs, hfr⟩
            exact ⟨f, by simp [hf], hfs, hfr⟩
    · next hg =>
      intro p hp
      rcases ih recs h p hp with ⟨f, hf, hfs, hfr⟩
      exact ⟨f, by simp [hf], hfs, hfr⟩

lemma scan_folder_filePath_source {fs : Folder} {recs : List PageRec}
    (h : scan_folder fs = .ok recs) :
    ∀ p ∈ recs, ∃ f ∈ fs, supportedFile f = true ∧ p.file_path = f.rel := by
  intro p hp
  rcases scanFiles_filePath_source (sortFiles fs) recs h p hp with
    ⟨f, hf, hfs, hfr⟩
  exact ⟨f, (mem_sortedBy _ fs f).mp hf, hfs, hfr⟩

lemma index_folder_fresh {fs : Folder} {embed : List String → List (List ℚ)}
    {coll : Collection} {path : String} {rootDoc : Entry}
    (hget : (coll.getById "__root__").head? = some rootDoc)
    (hfp : rootDoc.metadata.fingerprint = some (_folder_fingerprint fs))
    (hrf : rootDoc.metadata.root_folder = some path) :
    index_folder fs embed (some coll) path =
      .ok (some coll, freshResult coll) := by
  have hfc : freshCheck (some coll) (_folder_fingerprint fs) path =
      some (freshResult coll) := by
    simp [freshCheck, hget, hfp, hrf]
  simp only [index_folder, hfc]

lemma freshCheck_some {store : Option Collection} {fp path : String}
    {r : IndexResult} (h : freshCheck store fp path = some r) :
    ∃ coll, store = some coll ∧ r = freshResult coll := by
  cases store with
  | none => exact Option.noConfusion h
  | some coll =>
    refine ⟨coll, rfl, ?_⟩
    cases hrd : (coll.getById "__root__").head? with
    | none =>
      have hz : freshCheck (some coll) fp path = none := by
        simp only [freshCheck, hrd]
      rw [hz] at h
      cases h
    | some rd =>
      by_cases hcond : rd.metadata.fingerprint = some fp ∧
          rd.metadata.root_folder = some path
      · have hz : freshCheck (some coll) fp path = some (freshResult coll) := by
          simp only [freshCheck, hrd]
          rw [if_pos hcond]
        rw [hz] at h
        simp only [Option.some.injEq] at h
        exact h.symm
      · have hz : freshCheck (some coll) fp path = none := by
          simp only [freshCheck, hrd]
          rw [if_neg hcond]
        rw [hz] at h
        cases h

/-- After a build the collection's marker matches, so a second call on an
unchanged folder takes the FRESH early return. -/
lemma built_collection_fresh {fs : Folder}
    {embed' : List String → List (List ℚ)} {path : String}
    {pes : List Entry} {vE : List ℚ} :
    index_folder fs embed' (some ⟨(⟨"__root__", "__root_folder__",
        rootMeta path (_folder_fingerprint fs), vE⟩ : Entry) :: pes⟩) path =
      .ok (some ⟨(⟨"__root__", "__root_folder__",
          rootMeta path (_folder_fingerprint fs), vE⟩ : Entry) :: pes⟩,
        freshResult ⟨(⟨"__root__", "__root_folder__",
          rootMeta path (_folder_fingerprint fs), vE⟩ : Entry) :: pes⟩) := by
  have hget : ((⟨(⟨"__root__", "__root_folder__",
      rootMeta path (_folder_fingerprint fs), vE⟩ : Entry) :: pes⟩ :
      Collection).getById "__root__").head? =
      some ⟨"__root__", "__root_folder__",
        rootMeta path (_folder_fingerprint fs), vE⟩ := by
    show (((⟨"__root__", "__root_folder__",
      rootMeta path (_folder_fingerprint fs), vE⟩ : Entry) :: pes).filter
        fun e => e.id == "__root__").head? = _
    rw [List.filter_cons_of_pos (by simp)]
    rfl
  exact index_folder_fresh hget rfl rfl

lemma freshResult_total_pages {rootE : Entry} {pes : List Entry} :
    (freshResult ⟨rootE :: pes⟩).total_pages = pes.length := by
  show (rootE :: pes).length - 1 = pes.length
  simp

lemma freshResult_total_files {rootE : Entry} {pes : List Entry}
    (hroot : rootE.metadata.file_path = "__root__")
    (hpes : ∀ e ∈ pes, e.metadata.file_path ≠ "__root__") :
    (freshResult ⟨rootE :: pes⟩).total_files =
      ((pes.map (·.metadata.file_path)).foldl insertUniq []).length := by
  have hkeep : (⟨rootE :: pes⟩ : Collection).getWhereNe "__root__" = pes := by
    show ((rootE :: pes).filter fun e => e.metadata.file_path != "__root__") = pes
    rw [List.filter_cons_of_neg (by simp [hroot])]
    exact List.filter_eq_self.mpr
      (fun e he => by simpa [bne_iff_ne] using hpes e he)
  have hdef : (freshResult ⟨rootE :: pes⟩).total_files =
      ((((⟨rootE :: pes⟩ : Collection).getWhereNe "__root__").map
        (fun e => e.metadata.file_path)).foldl insertUniq []).length := rfl
  rw [hdef, hkeep]

/-! ## Claim C7 -/

/-- C7: for every query, page text and behavior of the external LLM judge
(any reply string or a raised error), `_llm_relevance_score` returns an
integer in `[1, 5]` and never propagates an error; when the judge call
fails it returns the neutral rating 3. -/
theorem C7_llm_judge_clamped_neutral_fallback :
    (∀ (judge : String → Except String String) (query text : String),
      1 ≤ _llm_relevance_score judge query text ∧
        _llm_relevance_score judge query text ≤ 5) ∧
    (∀ (judge : String → Except String String) (query text e : String),
      judge (ratingPrompt query text) = .error e →
      _llm_relevance_score judge query text = 3) := by
  constructor
  · intro judge query text
    cases hj : judge (ratingPrompt query text) with
    | error e => simp [_llm_relevance_score, hj]
    | ok reply =>
      cases hh : (pyStrip reply).data.head? with
      | none => simp [_llm_relevance_score, hj, hh]
      | some c =>
        simp only [_llm_relevance_score, hj, hh]
        split
        · omega
        · omega
  · intro judge query text e hj
    simp [_llm_relevance_score, hj]

/-- Witness for C7 at a failing judge and at a judge with a non-numeric
reply. -/
theorem C7_witness :
    _llm_relevance_score (fun _ => .error "connection refused") "q" "text" = 3 ∧
    1 ≤ _llm_relevance_score (fun _ => .ok "maybe 4") "q" "text" ∧
    _llm_relevance_score (fun _ => .ok "maybe 4") "q" "text" ≤ 5 :=
  ⟨C7_llm_judge_clamped_neutral_fallback.2 _ "q" "text" "connection refused" rfl,
   (C7_llm_judge_clamped_neutral_fallback.1 (fun _ => .ok "maybe 4") "q" "text").1,
   (C7_llm_judge_clamped_neutral_fallback.1 (fun _ => .ok "maybe 4") "q" "text").2⟩

/-! ## Claim C2 -/

/-- C2 fails on the code: `scan_folder` wraps no try/except around the
extractor call, so one failing file aborts the whole scan.  Here a folder
holds a good `a.txt` (which alone would yield one page record) and a
`bad.pdf` whose extractor raises `"boom"`: the scan returns the error and
not the good file's records. -/
theorem C2_counterexample :
    scan_folder
        [⟨"/r/a.txt", ".txt", true, 100, "a.txt", .ok [⟨1, "hello"⟩]⟩,
         ⟨"/r/bad.pdf", ".pdf", true, 200, "bad.pdf", .error "boom"⟩] =
      Except.error "boom" ∧
    scan_folder
        [⟨"/r/a.txt", ".txt", true, 100, "a.txt", .ok [⟨1, "hello"⟩]⟩,
         ⟨"/r/bad.pdf", ".pdf", true, 200, "bad.pdf", .error "boom"⟩] ≠
      Except.ok [⟨"a.txt", 1, "hello"⟩] := by
  constructor
  · rfl
  · decide

lemma scanFiles_error :
    ∀ (l : List FileNode),
      (∃ f ∈ l, supportedFile f = true ∧ ∃ e, f.extract = .error e) →
      ∃ e, scanFiles l = .error e := by
  intro l
  induction l with
  | nil => rintro ⟨f, hf, _⟩; exact absurd hf (List.not_mem_nil f)
  | cons g rest ih =>
    rintro ⟨f, hf, hfs, e, he⟩
    by_cases hg : supportedFile g = true
    · cases hext : g.extract with
      | error e' => exact ⟨e', by simp [scanFiles, hg, hext]⟩
      | ok pages =>
        have hfr : f ∈ rest := by
          rcases List.mem_cons.mp hf with rfl | h
          · rw [he] at hext; cases hext
          · exact h
        rcases ih ⟨f, hfr, hfs, e, he⟩ with ⟨e', he'⟩
        exact ⟨e', by simp [scanFiles, hg, hext, he']⟩
    · have hfr : f ∈ rest := by
        rcases List.mem_cons.mp hf with rfl | h
        · exact absurd hfs hg
        · exact h
      rcases ih ⟨f, hfr, hfs, e, he⟩ with ⟨e', he'⟩
      refine ⟨e', ?_⟩
      simp only [scanFiles]
      rw [if_neg (by simp [hg])]
      exact he'

/-- C2 (amended): if any supported regular file's extractor raises during
scanning, `scan_folder` propagates an extraction error and aborts the whole
scan — no page records of the other files are returned. -/
theorem C2_amended_scan_propagates_extractor_error :
    ∀ (fs : Folder),
      (∃ f ∈ fs, supportedFile f = true ∧ ∃ e, f.extract = .error e) →
      ∃ e, scan_folder fs = .error e := by
  rintro fs ⟨f, hf, hfs, e, he⟩
  exact scanFiles_error (sortFiles fs)
    ⟨f, (mem_sortedBy _ fs f).mpr hf, hfs, e, he⟩

/-- Witness for the amended C2. -/
theorem C2_amended_witness :
    ∃ e, scan_folder
        [⟨"/r/a.txt", ".txt", true, 100, "a.txt", .ok [⟨1, "hello"⟩]⟩,
         ⟨"/r/bad.pdf", ".pdf", true, 200, "bad.pdf", .error "boom"⟩] =
      Except.error e :=
  C2_amended_scan_propagates_extractor_error _
    ⟨⟨"/r/bad.pdf", ".pdf", true, 200, "bad.pdf", .error "boom"⟩,
      by decide, by decide, "boom", rfl⟩

/-! ## Claim C8 -/

/-- C8: on the rebuild path (the fresh-check did not fire), if the scan of
the requested folder yields zero page records, `index_folder` returns a
`"error"` / "No supported files found" result with `total_pages = 0` and
the stored collection is returned untouched — it is neither deleted nor
recreated and none of its entries change. -/
theorem C8_empty_scan_reports_error_leaves_collection :
    ∀ (fs : Folder) (embed : List String → List (List ℚ))
      (store : Option Collection) (path : String),
      freshCheck store (_folder_fingerprint fs) path = none →
      scan_folder fs = .ok [] →
      index_folder fs embed store path =
        .ok (store, ⟨"error", 0, 0, [], some "No supported files found"⟩) := by
  intro fs embed store path hfresh hscan
  simp [index_folder, hfresh, hscan]

/-- Witness for C8: a folder holding only an unsupported file, against a
stored collection whose root marker does not match. -/
theorem C8_witness :
    index_folder [⟨"/r/x.exe", ".exe", true, 5, "x.exe", .ok []⟩]
        (fun ts => ts.map fun _ => [])
        (some ⟨[⟨"__root__", "__root_folder__",
          ⟨"__root__", 0, some "/other", none⟩, []⟩]⟩) "/r" =
      .ok (some ⟨[⟨"__root__", "__root_folder__",
          ⟨"__root__", 0, some "/other", none⟩, []⟩]⟩,
        ⟨"error", 0, 0, [], some "No supported files found"⟩) :=
  C8_empty_scan_reports_error_leaves_collection _ _ _ "/r" rfl rfl

/-! ## Claim C4 -/

lemma fileLe_total (a b : FileNode) :
    strLeB a.path b.path = true ∨ strLeB b.path a.path = true :=
  strLeB_total a.path b.path

lemma fileLe_trans (a b c : FileNode) (h1 : strLeB a.path b.path = true)
    (h2 : strLeB b.path c.path = true) : strLeB a.path c.path = true :=
  strLeB_trans a.path b.path c.path h1 h2

/-- The code's fingerprint (sort all enumerated paths, then keep supported
regular files while joining) equals the spec's reading (enumerate the
supported files sorted by path). -/
lemma fingerprint_eq_spec (fs : Folder) :
    _folder_fingerprint fs = fingerprintOfSpec fs := by
  have key : fingerprintEntries fs =
      (sortFiles (fs.filter supportedFile)).map
        (fun fp => fp.path ++ ":" ++ decStr fp.mtimeNs) := by
    rw [fingerprintEntries, filterMap_if_eq_map_filter]
    congr 1
    exact sortedBy_filter_comm fileLe_total fileLe_trans fs
  simp only [_folder_fingerprint, fingerprintOfSpec, key]

/-- C4: `_folder_fingerprint` equals the first 16 hexadecimal characters of
the SHA-256 hash of the newline-joined `"<absolute_path>:<mtime_ns>"`
strings over the supported regular files sorted by path (the definition
following the spec's words, `fingerprintOfSpec`, with `sha256hex` a full
SHA-256 over the UTF-8 bytes); being a pure function of the folder
snapshot, two computations over an unchanged folder yield the identical
digest; and a file with an unsupported extension never influences the
digest. -/
theorem C4_fingerprint_sha256_unsupported_independent :
    (∀ fs : Folder, _folder_fingerprint fs = fingerprintOfSpec fs) ∧
    (∀ (pre post : Folder) (u : FileNode),
      pyLower u.suffix ∉ SUPPORTED_EXTENSIONS →
      _folder_fingerprint (pre ++ u :: post) =
        _folder_fingerprint (pre ++ post)) := by
  refine ⟨fingerprint_eq_spec, ?_⟩
  intro pre post u hu
  have hsup : supportedFile u = false := by
    simp [supportedFile, hu]
  rw [fingerprint_eq_spec, fingerprint_eq_spec]
  rw [fingerprintOfSpec, fingerprintOfSpec]
  simp only [List.filter_append, List.filter_cons, hsup]
  simp

/-- Witness for C4: dropping an unsupported `.exe` file leaves the digest
unchanged. -/
theorem C4_witness :
    _folder_fingerprint ([] ++ ⟨"/r/n.exe", ".exe", true, 7, "n.exe", .ok []⟩ ::
        [⟨"/r/a.txt", ".txt", true, 100, "a.txt", .ok [⟨1, "hi"⟩]⟩]) =
      _folder_fingerprint
        ([] ++ [⟨"/r/a.txt", ".txt", true, 100, "a.txt", .ok [⟨1, "hi"⟩]⟩]) :=
  C4_fingerprint_sha256_unsupported_independent.2 [] _ _ (by decide)

/-! ## Claim C9 -/

/-- C9: for every non-blank query with requested count `n`, the search
requests `n + 1` nearest neighbors (compensating for the root marker) and
truncates the final result list to (at most) `n` entries; the length bound
holds on every successful search, rerank or not. -/
theorem C9_search_requests_succ_truncates :
    (∀ (coll : Collection) (dist : Entry → ℚ) (query : String) (n : ℕ)
        (judge : String → Except String String),
      pyStrip query ≠ "" →
      api_search (some coll) dist query n false judge =
        .ok ⟨pyStrip query,
          ((coll.query dist (n + 1) notRoot).map (mkSearchResult dist)).take n⟩) ∧
    (∀ (store : Option Collection) (dist : Entry → ℚ) (query : String)
        (n : ℕ) (rk : Bool) (judge : String → Except String String)
        (resp : SearchResponse),
      api_search store dist query n rk judge = .ok resp →
      resp.results.length ≤ n) := by
  constructor
  · intro coll dist query n judge hq
    simp [api_search, hq]
  · intro store dist query n rk judge resp h
    simp only [api_search] at h
    split at h
    · exact absurd h (by simp)
    · cases store with
      | none => exact absurd h (by simp)
      | some coll =>
        simp only [Except.ok.injEq] at h
        subst h
        show (if rk && _ then _ else _ : List SearchResult).length ≤ n
        split
        · rw [rerankPass_length]
          exact List.length_take_le n _
        · exact List.length_take_le n _

/-- Witness for C9 on an empty collection with `n = 3`. -/
theorem C9_witness :
    api_search (some ⟨[]⟩) (fun _ => 0) "q" 3 false (fun _ => .ok "5") =
      .ok ⟨pyStrip "q",
        (((⟨[]⟩ : Collection).query (fun _ => 0) (3 + 1) notRoot).map
          (mkSearchResult fun _ => 0)).take 3⟩ :=
  (C9_search_requests_succ_truncates.1 ⟨[]⟩ (fun _ => 0) "q" 3
    (fun _ => .ok "5") (by decide))

/-! ## Claim C5 -/

lemma search_hit_not_root {coll : Collection} {dist : Entry → ℚ} {k n : ℕ}
    {r : SearchResult}
    (h : r ∈ ((coll.query dist k notRoot).map (mkSearchResult dist)).take n) :
    r.file_path ≠ "__root__" := by
  have h1 := List.mem_of_mem_take h
  rcases List.mem_map.mp h1 with ⟨e, he, rfl⟩
  have h2 := mem_query he
  simp only [notRoot, bne_iff_ne, ne_eq] at h2
  simpa [mkSearchResult] using h2

/-- C5: no result of the search path and no source of the chat path ever
has `file_path = "__root__"`: both read paths query with the metadata
filter excluding the root marker. -/
theorem C5_no_root_marker_in_results :
    (∀ (store : Option Collection) (dist : Entry → ℚ) (query : String)
        (n : ℕ) (rk : Bool) (judge : String → Except String String)
        (resp : SearchResponse) (r : SearchResult),
      api_search store dist query n rk judge = .ok resp →
      r ∈ resp.results → r.file_path ≠ "__root__") ∧
    (∀ (store : Option Collection) (dist : Entry → ℚ) (question : String)
        (history : List ChatMsg) (nc : ℕ)
        (chatModel : List ChatMsg → Except String String)
        (resp : ChatResponse) (src : ChatSource),
      api_chat store dist question history nc chatModel = .ok resp →
      src ∈ resp.sources → src.file_path ≠ "__root__") := by
  constructor
  · intro store dist query n rk judge resp r h hr
    simp only [api_search] at h
    split at h
    · exact absurd h (by simp)
    · cases store with
      | none => exact absurd h (by simp)
      | some coll =>
        simp only [Except.ok.injEq] at h
        subst h
        dsimp only at hr
        split at hr
        · rcases mem_rerankPass hr with ⟨s, hs, hfp, _⟩
          rw [hfp]
          exact search_hit_not_root hs
        · exact search_hit_not_root hr
  · intro store dist question history nc chatModel resp src h hsrc
    simp only [api_chat] at h
    split at h
    · exact absurd h (by simp)
    · cases store with
      | none => exact absurd h (by simp)
      | some coll =>
        dsimp only at h
        split at h
        · exact absurd h (by simp)
        · simp only [Except.ok.injEq] at h
          subst h
          dsimp only at hsrc
          rcases List.mem_map.mp hsrc with ⟨e, he, rfl⟩
          have h2 := mem_query (List.mem_of_mem_take he)
          simpa [notRoot, bne_iff_ne] using h2

/-- Witness for C5 on a two-entry collection (root marker plus one page):
the only search result and the only chat source come from the page. -/
theorem C5_witness :
    (∀ r ∈ (SearchResponse.mk (pyStrip "q")
        ((((Collection.mk [⟨"__root__", "__root_folder__",
            ⟨"__root__", 0, some "/r", some "f"⟩, []⟩,
          ⟨"a.txt::page_1", "hello", ⟨"a.txt", 1, none, none⟩, []⟩]).query
            (fun _ => 0) (3 + 1) notRoot).map
          (mkSearchResult fun _ => 0)).take 3)).results,
      r.file_path ≠ "__root__") ∧
    (∀ src ∈ (ChatResponse.mk (pyStrip "fine")
        [⟨"a.txt", 1⟩]).sources, src.file_path ≠ "__root__") := by
  constructor
  · intro r hr
    exact C5_no_root_marker_in_results.1 (some ⟨[⟨"__root__", "__root_folder__",
      ⟨"__root__", 0, some "/r", some "f"⟩, []⟩,
      ⟨"a.txt::page_1", "hello", ⟨"a.txt", 1, none, none⟩, []⟩]⟩)
      (fun _ => 0) "q" 3 false (fun _ => .ok "5") _ r rfl hr
  · intro src hsrc
    exact C5_no_root_marker_in_results.2 (some ⟨[⟨"__root__", "__root_folder__",
      ⟨"__root__", 0, some "/r", some "f"⟩, []⟩,
      ⟨"a.txt::page_1", "hello", ⟨"a.txt", 1, none, none⟩, []⟩]⟩)
      (fun _ => 0) "what" [] 2 (fun _ => .ok "fine") _ src rfl hsrc

/-! ## Claim C6 -/

lemma simLe_total (a b : SearchResult) :
    decide (b.similarity_score ≤ a.similarity_score) = true ∨
    decide (a.similarity_score ≤ b.similarity_score) = true := by
  rcases le_total b.similarity_score a.similarity_score with h | h
  · left; simpa using h
  · right; simpa using h

lemma simLe_trans (a b c : SearchResult)
    (h1 : decide (b.similarity_score ≤ a.similarity_score) = true)
    (h2 : decide (c.similarity_score ≤ b.similarity_score) = true) :
    decide (c.similarity_score ≤ a.similarity_score) = true := by
  simp only [decide_eq_true_eq] at h1 h2 ⊢
  exact le_trans h2 h1

/-- C6: when reranking is requested and the truncated result list is
non-empty, `api_search` replaces each score by
`0.6 * similarity + 0.4 * (llm_rating / 5)` rounded to 4 decimal places and
re-sorts descending with the stable insertion sort; similarity `0.8` with
rating 5 combines to exactly `0.88`; the sort output is weakly descending,
and elements tied at any score value keep their prior relative order. -/
theorem C6_rerank_fusion_stable_sort :
    (∀ (coll : Collection) (dist : Entry → ℚ) (query : String) (n : ℕ)
        (judge : String → Except String String) (r : SearchResult)
        (rs : List SearchResult),
      pyStrip query ≠ "" →
      ((coll.query dist (n + 1) notRoot).map (mkSearchResult dist)).take n =
        r :: rs →
      api_search (some coll) dist query n true judge =
        .ok ⟨pyStrip query, rerankPass judge (pyStrip query) (r :: rs)⟩) ∧
    (∀ (judge : String → Except String String) (q : String)
        (results : List SearchResult),
      rerankPass judge q results =
        sortedBy (fun a b => decide (b.similarity_score ≤ a.similarity_score))
          (results.map fun s =>
            { s with similarity_score :=
                round4 ((6 : ℚ)/10 * s.similarity_score +
                  4/10 * ((_llm_relevance_score judge q s.full_text : ℚ) / 5)) })) ∧
    round4 ((6 : ℚ)/10 * (8/10) + 4/10 * ((5 : ℚ)/5)) = 88/100 ∧
    (∀ (l : List SearchResult),
      List.Pairwise (fun a b => b.similarity_score ≤ a.similarity_score)
        (sortedBy (fun a b => decide (b.similarity_score ≤ a.similarity_score)) l)) ∧
    (∀ (l : List SearchResult) (c : ℚ),
      (sortedBy (fun a b => decide (b.similarity_score ≤ a.similarity_score))
          l).filter (fun r => r.similarity_score == c) =
        l.filter (fun r => r.similarity_score == c)) := by
  refine ⟨?_, ?_, ?_, ?_, ?_⟩
  · intro coll dist query n judge r rs hq htake
    simp [api_search, hq, htake]
  · intro judge q results
    rfl
  · norm_num [round4, roundHalfEven, ratFloor_eq_floor]
  · intro l
    have := sortedBy_pairwise simLe_total simLe_trans l
    exact this.imp fun h => by simpa using h
  · intro l c
    apply sortedBy_filter_stable
    intro x hx y hy
    simp only [beq_iff_eq] at hx
    have hlt : x.similarity_score < y.similarity_score := by
      have hn : ¬ y.similarity_score ≤ x.similarity_score := by simpa using hy
      exact not_le.mp hn
    simp only [beq_eq_false_iff_ne, ne_eq]
    intro hyc
    rw [hyc, hx] at hlt
    exact absurd hlt (lt_irrefl c)

/-! ## Claim C1 -/

/-- C1: when the stored root marker carries exactly the freshly computed
fingerprint and the same root folder path, `index_folder` returns the
`FRESH` result — status `"ok"`, message "Already indexed (no changes
detected)", page count recomputed as `count() - 1` from the persisted
metadata — without modifying the collection and without invoking the
embedding service (the result is the same for every embedding function);
hence indexing the same unchanged root twice yields a second call with
status `"ok"`, the "already indexed" message and file/page counts
identical to the first call's. -/
theorem C1_fresh_skip_and_idempotent_second_call :
    (∀ (fs : Folder) (embed embed' : List String → List (List ℚ))
        (coll : Collection) (path : String) (rootDoc : Entry),
      (coll.getById "__root__").head? = some rootDoc →
      rootDoc.metadata.fingerprint = some (_folder_fingerprint fs) →
      rootDoc.metadata.root_folder = some path →
      index_folder fs embed (some coll) path =
        .ok (some coll, freshResult coll) ∧
      (freshResult coll).status = "ok" ∧
      (freshResult coll).message =
        some "Already indexed (no changes detected)" ∧
      (freshResult coll).total_pages = coll.count - 1 ∧
      index_folder fs embed (some coll) path =
        index_folder fs embed' (some coll) path) ∧
    (∀ (fs : Folder) (embed embed' : List String → List (List ℚ))
        (store0 store1 : Option Collection) (path : String) (r1 : IndexResult),
      (∀ ts, (embed ts).length = ts.length) →
      (∀ pages, scan_folder fs = .ok pages →
        (pages.map fun p => (p.file_path, p.page_number)).Nodup) →
      (∀ f ∈ fs, supportedFile f = true → f.rel ≠ "__root__") →
      index_folder fs embed store0 path = .ok (store1, r1) →
      r1.status = "ok" →
      ∃ r2, index_folder fs embed' store1 path = .ok (store1, r2) ∧
        r2.status = "ok" ∧
        r2.message = some "Already indexed (no changes detected)" ∧
        r2.total_pages = r1.total_pages ∧
        r2.total_files = r1.total_files) := by
  constructor
  · intro fs embed embed' coll path rootDoc hget hfp hrf
    refine ⟨index_folder_fresh hget hfp hrf, rfl, rfl, rfl, ?_⟩
    have h1 : index_folder fs embed (some coll) path =
        .ok (some coll, freshResult coll) := index_folder_fresh hget hfp hrf
    have h2 : index_folder fs embed' (some coll) path =
        .ok (some coll, freshResult coll) := index_folder_fresh hget hfp hrf
    rw [h1, h2]
  · intro fs embed embed' store0 store1 path r1 hlen hnodups hroot h1 hstat
    cases hfc : freshCheck store0 (_folder_fingerprint fs) path with
    | some rfr =>
      rcases freshCheck_some hfc with ⟨coll, rfl, rfl⟩
      have hone : index_folder fs embed (some coll) path =
          .ok (some coll, freshResult coll) := by
        simp only [index_folder, hfc]
      rw [hone] at h1
      simp only [Except.ok.injEq, Prod.mk.injEq] at h1
      obtain ⟨hs, hr⟩ := h1
      subst hs
      subst hr
      refine ⟨freshResult coll, ?_, rfl, rfl, rfl, rfl⟩
      simp only [index_folder, hfc]
    | none =>
      cases hscan : scan_folder fs with
      | error e =>
        rw [show index_folder fs embed store0 path = .error e from by
          simp only [index_folder, hfc, hscan]] at h1
        cases h1
      | ok pages =>
        by_cases hne : pages = []
        · subst hne
          rw [show index_folder fs embed store0 path =
              .ok (store0, ⟨"error", 0, 0, [], some "No supported files found"⟩)
            from by simp [index_folder, hfc, hscan]] at h1
          simp only [Except.ok.injEq, Prod.mk.injEq] at h1
          obtain ⟨hs, hr⟩ := h1
          rw [← hr] at hstat
          exact absurd hstat (by decide)
        · have hpairs := hnodups pages hscan
          have hids := ids_nodup_of_pairs hpairs
          rw [index_folder_build hlen hfc hscan hne hids] at h1
          simp only [Except.ok.injEq, Prod.mk.injEq] at h1
          obtain ⟨hs, hr⟩ := h1
          subst hs
          subst hr
          have hmapid := flatten_batchEntries_map_id embed hlen pages
          have hmapfp := flatten_batchEntries_map_fp embed hlen pages
          have hlen2 :
              (((batchesOf pages).map (batchEntries embed)).flatten).length =
              pages.length := by
            have h := congrArg List.length hmapid
            rw [List.length_map, List.length_map] at h
            exact h
          refine ⟨_, built_collection_fresh, rfl, rfl, ?_, ?_⟩
          · rw [freshResult_total_pages, hlen2]
          · rw [freshResult_total_files rfl ?_]
            · rw [hmapfp, List.foldl_map]
            · intro e he
              have h3 : e.metadata.file_path ∈
                  ((batchesOf pages).map (batchEntries embed)).flatten.map
                    (·.metadata.file_path) :=
                List.mem_map_of_mem _ he
              rw [hmapfp] at h3
              rcases List.mem_map.mp h3 with ⟨p, hp, hpe⟩
              rcases scan_folder_filePath_source hscan p hp with
                ⟨f, hf, hfs, hfr⟩
              rw [← hpe, hfr]
              exact hroot f hf hfs

/-- Witness for C1: the FRESH return is independent of the embedding
service, and a second call after a first build returns identical counts. -/
theorem C1_witness :
    (index_folder [⟨"/r/a.txt", ".txt", true, 100, "a.txt", .ok [⟨1, "hello"⟩]⟩]
        (fun ts => ts.map fun _ => [(1 : ℚ)])
        (some ⟨[⟨"__root__", "__root_folder__",
          ⟨"__root__", 0, some "/r", some (_folder_fingerprint
            [⟨"/r/a.txt", ".txt", true, 100, "a.txt", .ok [⟨1, "hello"⟩]⟩])⟩,
          []⟩]⟩) "/r" =
      index_folder [⟨"/r/a.txt", ".txt", true, 100, "a.txt", .ok [⟨1, "hello"⟩]⟩]
        (fun ts => ts.map fun _ => [(2 : ℚ)])
        (some ⟨[⟨"__root__", "__root_folder__",
          ⟨"__root__", 0, some "/r", some (_folder_fingerprint
            [⟨"/r/a.txt", ".txt", true, 100, "a.txt", .ok [⟨1, "hello"⟩]⟩])⟩,
          []⟩]⟩) "/r") ∧
    (∃ r2, index_folder
        [⟨"/r/a.txt", ".txt", true, 100, "a.txt", .ok [⟨1, "hello"⟩]⟩]
        (fun ts => ts.map fun _ => [(2 : ℚ)])
        (some ⟨(⟨"__root__", "__root_folder__",
            rootMeta "/r" (_folder_fingerprint
              [⟨"/r/a.txt", ".txt", true, 100, "a.txt", .ok [⟨1, "hello"⟩]⟩]),
            ((fun ts : List String => ts.map fun _ => [(1 : ℚ)])
              ["root folder marker"]).headD []⟩ : Entry) ::
          ((batchesOf [⟨"a.txt", 1, "hello"⟩]).map
            (batchEntries fun ts => ts.map fun _ => [(1 : ℚ)])).flatten⟩) "/r" =
      .ok (some ⟨(⟨"__root__", "__root_folder__",
            rootMeta "/r" (_folder_fingerprint
              [⟨"/r/a.txt", ".txt", true, 100, "a.txt", .ok [⟨1, "hello"⟩]⟩]),
            ((fun ts : List String => ts.map fun _ => [(1 : ℚ)])
              ["root folder marker"]).headD []⟩ : Entry) ::
          ((batchesOf [⟨"a.txt", 1, "hello"⟩]).map
            (batchEntries fun ts => ts.map fun _ => [(1 : ℚ)])).flatten⟩, r2) ∧
      r2.status = "ok" ∧
      r2.message = some "Already indexed (no changes detected)" ∧
      r2.total_pages = (⟨"ok", 1, 1, ["a.txt"], none⟩ : IndexResult).total_pages ∧
      r2.total_files = (⟨"ok", 1, 1, ["a.txt"], none⟩ : IndexResult).total_files) :=
  ⟨(C1_fresh_skip_and_idempotent_second_call.1
    [⟨"/r/a.txt", ".txt", true, 100, "a.txt", .ok [⟨1, "hello"⟩]⟩]
    (fun ts => ts.map fun _ => [(1 : ℚ)]) (fun ts => ts.map fun _ => [(2 : ℚ)])
    ⟨[⟨"__root__", "__root_folder__",
      ⟨"__root__", 0, some "/r", some (_folder_fingerprint
        [⟨"/r/a.txt", ".txt", true, 100, "a.txt", .ok [⟨1, "hello"⟩]⟩])⟩, []⟩]⟩
    "/r" ⟨"__root__", "__root_folder__",
      ⟨"__root__", 0, some "/r", some (_folder_fingerprint
        [⟨"/r/a.txt", ".txt", true, 100, "a.txt", .ok [⟨1, "hello"⟩]⟩])⟩, []⟩
    rfl rfl rfl).2.2.2.2,
  C1_fresh_skip_and_idempotent_second_call.2
    [⟨"/r/a.txt", ".txt", true, 100, "a.txt", .ok [⟨1, "hello"⟩]⟩]
    (fun ts => ts.map fun _ => [(1 : ℚ)]) (fun ts => ts.map fun _ => [(2 : ℚ)])
    none
    (some ⟨(⟨"__root__", "__root_folder__",
        rootMeta "/r" (_folder_fingerprint
          [⟨"/r/a.txt", ".txt", true, 100, "a.txt", .ok [⟨1, "hello"⟩]⟩]),
        ((fun ts : List String => ts.map fun _ => [(1 : ℚ)])
          ["root folder marker"]).headD []⟩ : Entry) ::
      ((batchesOf [⟨"a.txt", 1, "hello"⟩]).map
        (batchEntries fun ts => ts.map fun _ => [(1 : ℚ)])).flatten⟩)
    "/r" ⟨"ok", 1, 1, ["a.txt"], none⟩
    (fun ts => by simp)
    (by
      intro pages hp
      have h0 : scan_folder
          [⟨"/r/a.txt", ".txt", true, 100, "a.txt", .ok [⟨1, "hello"⟩]⟩] =
          .ok [⟨"a.txt", 1, "hello"⟩] := rfl
      rw [h0] at hp
      injection hp with hp
      subst hp
      decide)
    (by decide) rfl rfl⟩

/-! ## Claim C3 -/

/-- C3: assuming the embedding service returns exactly one vector per input
string in input order (`hlen`), every entry persisted during a rebuild has
id `<file_path>::page_<page_number>`, stores the page's text as its
document and its `{file_path, page_number}` as its metadata, and receives
the embedding vector at the same position as its text within its batch;
batches hold at most 32 pages. -/
theorem C3_persisted_entries_positionally_aligned :
    ∀ (fs : Folder) (embed : List String → List (List ℚ))
      (store : Option Collection) (path : String) (pages : List PageRec)
      (collF : Collection) (r : IndexResult),
      (∀ ts, (embed ts).length = ts.length) →
      freshCheck store (_folder_fingerprint fs) path = none →
      scan_folder fs = .ok pages →
      pages ≠ [] →
      (pages.map fun p => pageId p.file_path p.page_number).Nodup →
      index_folder fs embed store path = .ok (some collF, r) →
      collF.entries = (⟨"__root__", "__root_folder__",
          rootMeta path (_folder_fingerprint fs),
          (embed ["root folder marker"]).headD []⟩ : Entry) ::
        ((batchesOf pages).map (batchEntries embed)).flatten ∧
      (∀ b ∈ batchesOf pages, b.length ≤ 32) ∧
      (∀ b ∈ batchesOf pages, ∀ (i : ℕ) (p : PageRec) (v : List ℚ),
        b[i]? = some p → (embed (b.map (·.text)))[i]? = some v →
        (batchEntries embed b)[i]? =
          some ⟨pageId p.file_path p.page_number, p.text,
            ⟨p.file_path, p.page_number, none, none⟩, v⟩) := by
  intro fs embed store path pages collF r hlen hfresh hscan hne hnodup hidx
  rw [index_folder_build hlen hfresh hscan hne hnodup] at hidx
  simp only [Except.ok.injEq, Prod.mk.injEq, Option.some.injEq] at hidx
  refine ⟨?_, chunksOf_length_le 32 pages, ?_⟩
  · rw [← hidx.1]
  · intro b hb i p v hp hv
    have hip : (b.map fun q => pageId q.file_path q.page_number)[i]? =
        some (pageId p.file_path p.page_number) := by
      rw [List.getElem?_map, hp]; rfl
    have hit : (b.map (·.text))[i]? = some p.text := by
      rw [List.getElem?_map, hp]; rfl
    have him : (b.map pageMeta)[i]? = some (pageMeta p) := by
      rw [List.getElem?_map, hp]; rfl
    exact mkEntries_getElem? _ i _ _ _ _ _ _ _ hip hit him hv

/-- Witness for C3: one text file, one batch, position 0. -/
theorem C3_witness :
    (batchEntries (fun ts => ts.map fun _ => ([] : List ℚ))
        [⟨"a.txt", 1, "hello"⟩])[0]? =
      some ⟨pageId "a.txt" 1, "hello", ⟨"a.txt", 1, none, none⟩, []⟩ :=
  (C3_persisted_entries_positionally_aligned
    [⟨"/r/a.txt", ".txt", true, 100, "a.txt", .ok [⟨1, "hello"⟩]⟩]
    (fun ts => ts.map fun _ => []) none "/r" [⟨"a.txt", 1, "hello"⟩]
    ⟨(⟨"__root__", "__root_folder__",
        rootMeta "/r" (_folder_fingerprint
          [⟨"/r/a.txt", ".txt", true, 100, "a.txt", .ok [⟨1, "hello"⟩]⟩]), []⟩ :
        Entry) ::
      ((batchesOf [⟨"a.txt", 1, "hello"⟩]).map
        (batchEntries fun ts => ts.map fun _ => [])).flatten⟩
    ⟨"ok", 1, 1, ["a.txt"], none⟩
    (fun ts => by simp) rfl rfl (by decide) (by decide) rfl).2.2
    [⟨"a.txt", 1, "hello"⟩] (by decide) 0 ⟨"a.txt", 1, "hello"⟩ [] rfl rfl

/-! ## Claim C10 -/

/-- C10: every extractor emits page records with strictly increasing page
numbers within its file, and the scanner tags each file's records with that
file's relative path; with pairwise-distinct relative paths the generated
ids `<file_path>::page_<page_number>` are pairwise distinct within one
build, so (under the store's upsert-by-id semantics) no entry written in a
build overwrites another entry of the same build. -/
theorem C10_ids_never_repeat_within_build :
    (∀ doc : List String, List.Pairwise (· < ·)
      ((extract_pages_from_pdf doc).map Page.page_number)) ∧
    (∀ slides : List (List Shape), List.Pairwise (· < ·)
      ((extract_pages_from_pptx slides).map Page.page_number)) ∧
    (∀ paragraphs : List String, List.Pairwise (· < ·)
      ((extract_pages_from_docx paragraphs).map Page.page_number)) ∧
    (∀ contents : String, List.Pairwise (· < ·)
      ((extract_pages_from_txt contents).map Page.page_number)) ∧
    (∀ (fs : Folder) (recs : List PageRec),
      List.Pairwise (fun a b : FileNode => a.rel ≠ b.rel) fs →
      (∀ f ∈ fs, ∀ ps, f.extract = .ok ps →
        List.Pairwise (· < ·) (ps.map Page.page_number)) →
      scan_folder fs = .ok recs →
      (recs.map fun p => pageId p.file_path p.page_number).Nodup) := by
  refine ⟨?_, ?_, ?_, ?_, ?_⟩
  · intro doc
    exact (pdfPagesGo_sorted doc 0).1
  · intro slides
    exact (pptxPagesGo_sorted slides 1).1
  · intro paragraphs
    simp only [extract_pages_from_docx]
    split <;> simp
  · intro contents
    simp only [extract_pages_from_txt]
    split <;> simp
  · intro fs recs hrel hext hscan
    exact (scan_folder_nodup hrel hext hscan).2.1

/-- Witness for C10 on a folder of two text files. -/
theorem C10_witness :
    ([(⟨"a.txt", 1, "hello"⟩ : PageRec), ⟨"b.txt", 1, "world"⟩].map
      fun p => pageId p.file_path p.page_number).Nodup :=
  C10_ids_never_repeat_within_build.2.2.2.2
    [⟨"/r/a.txt", ".txt", true, 1, "a.txt", .ok [⟨1, "hello"⟩]⟩,
     ⟨"/r/b.txt", ".txt", true, 2, "b.txt", .ok [⟨1, "world"⟩]⟩] _ (by decide)
    (by
      intro f hf ps hps
      rcases List.mem_cons.mp hf with rfl | hf
      · cases hps; decide
      · rcases List.mem_cons.mp hf with rfl | hf
        · cases hps; decide
        · exact absurd hf (List.not_mem_nil f))
    rfl

/-- Witness for C6 on a one-entry collection. -/
theorem C6_witness :
    api_search (some ⟨[⟨"a.txt::page_1", "hello", ⟨"a.txt", 1, none, none⟩, []⟩]⟩)
        (fun _ => 0) "q" 1 true (fun _ => .ok "5") =
      .ok ⟨pyStrip "q", rerankPass (fun _ => .ok "5") (pyStrip "q")
        (mkSearchResult (fun _ => 0)
            ⟨"a.txt::page_1", "hello", ⟨"a.txt", 1, none, none⟩, []⟩ :: [])⟩ :=
  C6_rerank_fusion_stable_sort.1
    ⟨[⟨"a.txt::page_1", "hello", ⟨"a.txt", 1, none, none⟩, []⟩]⟩
    (fun _ => 0) "q" 1 (fun _ => .ok "5") _ [] (by decide) rfl

end LectureLense
